import Mathlib

/-!
Verification of the mkpdf Document Tree Compiler.

Shallow embedding of `src/mkpdf/walker.py` and `src/mkpdf/merger.py`.

Modelling conventions:
* A filesystem path is a `List String` of components relative to the traversal
  root; the root itself is `[]`.
* A directory snapshot is an `FSEntry` tree (`FSList` is an inlined copy of
  `List FSEntry`, used only so that recursion over the tree is structural;
  `FSList.toList`/`FSList.ofList` convert).  The per-folder marker files
  (`.ignore`, `.order`, `.title`, `.label`) are carried as fields of a `dir`
  node, holding the content exactly as the corresponding reader functions of
  the source would produce it; `none` models an absent (or, for readers that
  swallow exceptions, unreadable) marker file.
* Python's per-process randomized `hash` builtin is a parameter
  `hash : String → Int`.
* `re.search` pattern filters are parameters of type `String → Bool` applied to
  the rendered relative path, exactly as `_match_filters` applies them.
* External I/O performed by the merger (pypdf's `PdfReader`, PIL image opening)
  is a parameter: `pdfPages : List String → Option Nat` gives the page count of
  a pdf file (`none` models an exception), and `imgReadable : List String → Bool`
  tells whether an image file can be opened and converted.
* Python string operations are re-implemented over `List Char` so that every
  definition evaluates inside the kernel.
* Recursion over the directory tree uses an explicit fuel argument
  (`walkFuel`); `select_paths` supplies `FSEntry.size root` fuel, which is
  always sufficient: `walkFuel_congr` below shows the result does not depend
  on the fuel once it is at least the tree size.
-/

namespace Mkpdf

/-! ## Python string primitives, re-implemented over `List Char` -/

/-- Python `str.lower()` (ASCII part, which is all the source compares). -/
def lowerStr (s : String) : String := String.mk (s.data.map Char.toLower)

/-- Lexicographic comparison of character lists by code point, Python's
string ordering. -/
def charsLe : List Char → List Char → Bool
  | [], _ => true
  | _ :: _, [] => false
  | a :: as, b :: bs => if a = b then charsLe as bs else decide (a < b)

/-- Python `a <= b` on strings. -/
def strLe (a b : String) : Bool := charsLe a.data b.data

/-- Python `str.strip()`. -/
def pyStrip (s : String) : String :=
  String.mk (((s.data.dropWhile Char.isWhitespace).reverse.dropWhile
    Char.isWhitespace).reverse)

/-- Python `name.startswith(".")`. -/
def startsWithDot (s : String) : Bool :=
  match s.data with
  | '.' :: _ => true
  | _ => false

/-- Index of the last `.` in a name, if any (Python `name.rfind('.')`). -/
def lastDotIdx (cs : List Char) : Option Nat :=
  ((List.range cs.length).filter (fun i => cs.get? i = some '.')).getLast?

/-- Python `pathlib.PurePath.suffix` of a final path component: the part of the
name from its last dot, provided that dot is neither the first nor the last
character; otherwise the empty string. -/
def pySuffix (name : String) : String :=
  let cs := name.data
  match lastDotIdx cs with
  | some i => if 0 < i ∧ i + 1 < cs.length then String.mk (cs.drop i) else ""
  | none => ""

/-- Python `pathlib.PurePath.stem` of a final path component: the name with
its suffix (as in `pySuffix`) removed. -/
def pyStem (name : String) : String :=
  let cs := name.data
  match lastDotIdx cs with
  | some i => if 0 < i ∧ i + 1 < cs.length then String.mk (cs.take i) else name
  | none => name

/-- Python `str.capitalize()`: first character uppercased, the rest
lowercased. -/
def pyCapitalize (s : String) : String :=
  match s.data with
  | [] => ""
  | c :: cs => String.mk (c.toUpper :: cs.map Char.toLower)

/-- Python `label.replace("_", " ")`. -/
def replaceUnderscores (s : String) : String :=
  String.mk (s.data.map (fun c => if c = '_' then ' ' else c))

/-- Split a text into lines at newline characters (Python `splitlines` for
`\n`-separated text, the conventional content of the marker files). -/
def splitLinesChars : List Char → List (List Char)
  | [] => [[]]
  | c :: cs =>
    if c = '\n' then [] :: splitLinesChars cs
    else
      match splitLinesChars cs with
      | [] => [[c]]
      | l :: ls => (c :: l) :: ls

/-- Split a line at its first `=`, Python `line.split("=", 1)`; `none` when the
line contains no `=` (the `"=" in line` test fails). -/
def splitFirstEq : List Char → Option (List Char × List Char)
  | [] => none
  | c :: cs =>
    if c = '=' then some ([], cs)
    else
      match splitFirstEq cs with
      | some (k, v) => some (c :: k, v)
      | none => none

/-- Render a root-relative component list the way `str(Path(*parts))` renders
it: `.` for the empty relative path, the components joined by `/` otherwise. -/
def renderRel (parts : List String) : String :=
  match parts with
  | [] => "."
  | _ => String.intercalate "/" parts

/-! ## A stable sort

Python's `sorted` / `list.sort(key=...)` is a stable sort by key; any stable
sort realizes exactly that input/output behavior, so we embed it as insertion
sort, which is stable and evaluates in the kernel. -/

/-- Insert `a` into `l` before the first element `b` with `le a b`. -/
def insertOrdered (le : α → α → Bool) (a : α) : List α → List α
  | [] => [a]
  | b :: l => if le a b then a :: b :: l else b :: insertOrdered le a l

/-- Stable sort (insertion sort): the embedding of Python's stable
`list.sort` / `sorted`. -/
def stableSort (le : α → α → Bool) : List α → List α
  | [] => []
  | a :: l => insertOrdered le a (stableSort le l)

/-! ## walker.py: data model -/

mutual
/-- A snapshot of one filesystem entry.

For a `dir`: `hasIgnore` models `(path / ".ignore").exists()`; `orderFile`
models the `.order` file's lines as `_load_dotfile_lines` returns them
(`none` = absent, and an unreadable file yields `some []` just as the source's
exception handler returns `[]`); `titleFile` is the raw text of a readable
`.title` file; `labelFile` is the raw text of a readable `.label` file. -/
inductive FSEntry where
  | dir (name : String) (hasIgnore : Bool) (orderFile : Option (List String))
        (titleFile : Option String) (labelFile : Option String)
        (children : FSList) : FSEntry
  | file (name : String) : FSEntry

/-- The children of a directory (an inlined `List FSEntry`). -/
inductive FSList where
  | nil : FSList
  | cons (head : FSEntry) (tail : FSList) : FSList
end

/-- View an `FSList` as a `List FSEntry`. -/
def FSList.toList : FSList → List FSEntry
  | .nil => []
  | .cons h t => h :: FSList.toList t

/-- Build an `FSList` from a `List FSEntry`. -/
def FSList.ofList : List FSEntry → FSList
  | [] => .nil
  | h :: t => .cons h (FSList.ofList t)

/-- The base name of an entry. -/
def FSEntry.name : FSEntry → String
  | .dir n _ _ _ _ _ => n
  | .file n => n

mutual
/-- Size of a snapshot tree, used as fuel for the traversal. -/
def FSEntry.size : FSEntry → Nat
  | .dir _ _ _ _ _ children => 1 + FSList.size children
  | .file _ => 1

/-- Size of a children list. -/
def FSList.size : FSList → Nat
  | .nil => 0
  | .cons h t => FSEntry.size h + FSList.size t
end

/-! ## walker.py: path selection -/

/-- `walker._should_ignore`. -/
def _should_ignore (hasIgnore : Bool) (name : String) : Bool :=
  hasIgnore || name == ".ignore"

/-- `walker._match_filters`: with a non-empty `includes`, some include pattern
must match; no exclude pattern may match.  `includes = []` models both Python
`None` and an empty list (both falsy). -/
def _match_filters (path : String) (includes excludes : List (String → Bool)) : Bool :=
  if !includes.isEmpty && !(includes.any (fun pattern => pattern path)) then false
  else if excludes.any (fun pattern => pattern path) then false
  else true

/-- `walker._is_img`. -/
def _is_img (name : String) : Bool :=
  [".jpg", ".jpeg", ".png", ".bmp", ".tiff", ".gif"].contains (lowerStr (pySuffix name))

/-- `walker._is_pdf`. -/
def _is_pdf (name : String) : Bool :=
  lowerStr (pySuffix name) == ".pdf"

/-- `walker._is_valid`. -/
def _is_valid : FSEntry → Bool
  | .dir _ _ _ _ _ _ => true
  | .file n => _is_pdf n || _is_img n

/-- The child-skipping test of the selection loop:
`child.name.startswith(".") or child.name in (".order", ".label", ".title", ".dpi")`. -/
def dotSkip (name : String) : Bool :=
  startsWithDot name || [".order", ".label", ".title", ".dpi"].contains name

/-- Python `{name: i for i, name in enumerate(preferred)}.get(n)`: the index of
the last occurrence of `n` in the hint list (a dict comprehension keeps the
last binding of a duplicated key). -/
def prefGet (preferred : List String) (n : String) : Option Nat :=
  (preferred.enum.filterMap (fun p => if p.2 = n then some p.1 else none)).getLast?

/-- Python `len(preferred_map)`: the number of distinct hint names. -/
def prefLen (preferred : List String) : Nat := preferred.eraseDups.length

/-- The sort key of the `.order` re-sort:
`preferred_map.get(p.name, len(preferred_map) + hash(p.name.lower()))`. -/
def sortKey (hash : String → Int) (preferred : List String) (n : String) : Int :=
  match prefGet preferred n with
  | some i => (i : Int)
  | none => (prefLen preferred : Int) + hash (lowerStr n)

/-- The ordering of a folder's children (walker.py lines 28–34): a stable sort
by lowercased name, then — when an `.order` file exists — a further stable
sort by the hint key.  It is applied to pairs `(child, recursive result)`;
both sorts compare only the child component, so this is the same iteration
order the source obtains by sorting the children before walking them. -/
def orderChildren (hash : String → Int) (orderFile : Option (List String))
    (pairs : List (FSEntry × β)) : List (FSEntry × β) :=
  let byName := stableSort
    (fun a b => strLe (lowerStr a.1.name) (lowerStr b.1.name)) pairs
  match orderFile with
  | none => byName
  | some preferred =>
      stableSort (fun a b =>
        decide (sortKey hash preferred a.1.name ≤ sortKey hash preferred b.1.name)) byName

/-- The recursive `walk` of `select_paths`, with explicit fuel.  Emits the
root-relative component lists of the selected paths in emission order.
`walk` is only ever invoked on directories, so the `file` case (unreachable
from `select_paths`) returns nothing. -/
def walkFuel (hash : String → Int) (includes excludes : List (String → Bool)) :
    Nat → FSEntry → List String → List (List String)
  | 0, _, _ => []
  | _ + 1, .file _, _ => []
  | fuel + 1, .dir name hasIgnore orderFile _ _ children, rel_parts =>
    if _should_ignore hasIgnore name then []
    else if (_match_filters (renderRel rel_parts) includes excludes) = false then []
    else
      let pairs := children.toList.map (fun child =>
        (child,
          if (_is_valid child) = false then []
          else if dotSkip child.name then []
          else
            match child with
            | .dir _ _ _ _ _ _ =>
                walkFuel hash includes excludes fuel child (rel_parts ++ [child.name])
            | .file n =>
                if _match_filters (renderRel (rel_parts ++ [n])) includes excludes
                then [rel_parts ++ [n]] else []))
      rel_parts :: (orderChildren hash orderFile pairs).flatMap (fun pr => pr.2)

/-- `walker.select_paths`: walk the snapshot from the root with sufficient
fuel. -/
def select_paths (hash : String → Int) (includes excludes : List (String → Bool))
    (root : FSEntry) : List (List String) :=
  walkFuel hash includes excludes root.size root []

end Mkpdf


namespace Mkpdf

/-! ## walker.py: entry description -/

/-- The `"type"` key of a tree item. -/
inductive EKind where
  | folder
  | pdf
  | img
deriving DecidableEq, Repr

/-- One item of the tree description: the dictionary built by
`_describe_folder` / `_describe_file`, extended during the merge with the
`"pages"` and `"page"` keys.  An `Option` field models a key that may be
absent (`none` = key not present); `only_images` is `false` when the
`"only_images"` key is absent, matching how the source reads it with
`.get("only_images")`. -/
structure Entry where
  path : List String
  type : EKind
  title : String := ""
  labels : List (String × String) := []
  label : Option String := none
  only_images : Bool := false
  pages : Option Nat := none
  page : Option Nat := none
deriving DecidableEq, Repr

/-- `walker._resolve_title`: the stripped text of a readable `.title` file,
else the folder's name.  (`titleFile = none` covers both an absent and an
unreadable `.title`, which the source treats identically.) -/
def _resolve_title (titleFile : Option String) (name : String) : String :=
  match titleFile with
  | some text => pyStrip text
  | none => name

/-- `walker._resolve_labels`: parse `key = value` lines from a `.label` file;
lines without `=` are skipped; an absent (or unreadable) file gives no
labels. -/
def _resolve_labels (labelFile : Option String) : List (String × String) :=
  match labelFile with
  | some text =>
      (splitLinesChars text.data).filterMap (fun line =>
        match splitFirstEq line with
        | some (k, v) => some (String.mk (pyStrip (String.mk k)).data,
                               String.mk (pyStrip (String.mk v)).data)
        | none => none)
  | none => []

/-- Python `labels.get(name)` on the parsed label list (a dict keeps the last
binding of a duplicated key). -/
def lookupLabel (labels : List (String × String)) (n : String) : Option String :=
  ((labels.filter (fun p => p.1 = n)).getLast?).map (fun p => p.2)

/-- `walker._describe_folder`.  `childFileNames` are the names of the folder's
direct children that are regular files (the `child.is_file()` filter of the
source); the `only_images` key is set iff some image child exists and no pdf
child does. -/
def _describe_folder (path : List String) (name : String)
    (titleFile labelFile : Option String) (childFileNames : List String) : Entry :=
  let has_pdf := childFileNames.any (fun n => _is_pdf n)
  let has_img := childFileNames.any (fun n => _is_img n)
  { path := path
    type := .folder
    title := _resolve_title titleFile name
    labels := _resolve_labels labelFile
    only_images := has_img && !has_pdf }

/-- `walker._describe_file`: attach a label from the enclosing folder's label
map when present and truthy (Python's walrus-`if` drops an empty-string
label), classify by suffix, and drop files of neither kind. -/
def _describe_file (path : List String) (name : String) (folder : Entry) : Option Entry :=
  let label : Option String :=
    match lookupLabel folder.labels name with
    | some l => if l = "" then none else some l
    | none => none
  if _is_pdf name then some { path := path, type := .pdf, label := label }
  else if _is_img name then some { path := path, type := .img, label := label }
  else none

/-! ## merger.py -/

/-- An outline node created by `writer.add_outline_item`.  `parent` is the
path of the folder whose outline node was passed as the parent (`none` when
the parent lookup found nothing, i.e. a root-level node); `src` records which
tree item created the node. -/
structure OutlineNode where
  title : String
  page_number : Nat
  parent : Option (List String)
  src : List String
deriving DecidableEq, Repr

/-- `merger._update_files_page_count`: give every pdf item its page count
(`0` plus a warning when `PdfReader` raises) and every image item a page
count of `1`; folders are untouched.  Returns the updated tree together with
the warned paths. -/
def _update_files_page_count (pdfPages : List String → Option Nat)
    (tree : List Entry) : List Entry × List (List String) :=
  (tree.map (fun item =>
      match item.type with
      | .pdf =>
          match pdfPages item.path with
          | some n => { item with pages := some n }
          | none => { item with pages := some 0 }
      | .img => { item with pages := some 1 }
      | .folder => item),
   tree.filterMap (fun item =>
      match item.type, pdfPages item.path with
      | .pdf, none => some item.path
      | _, _ => none))

/-- `merger._assign_folder_page_indices`: iterate the tree in reverse keeping
the page index of the last item seen that has a `page` key and a positive
page count; write it into every folder item encountered (the `elif` branch
also fires for a folder whose `page` key is present but whose page count is
zero). -/
def _assign_folder_page_indices (tree : List Entry) : List Entry :=
  (tree.foldr (fun item st =>
      if item.page.isSome ∧ 0 < item.pages.getD 0 then
        (item.page.getD 0, item :: st.2)
      else if item.type = .folder then
        (st.1, { item with page := some st.1 } :: st.2)
      else
        (st.1, item :: st.2))
    ((0 : Nat), ([] : List Entry))).2

/-- `merger._insert_into_pdf`, reduced to the number of pages it adds to the
writer: all pages of a readable pdf (a `PdfReader` failure adds nothing and
prints an error), the one converted page of a readable image (a conversion
failure adds nothing and prints an error), nothing for a folder. -/
def _insert_into_pdf (pdfPages : List String → Option Nat)
    (imgReadable : List String → Bool) (item : Entry) : Nat :=
  match item.type with
  | .pdf => (pdfPages item.path).getD 0
  | .img => if imgReadable item.path then 1 else 0
  | .folder => 0

/-- `merger._prettify_label`. -/
def _prettify_label (label : String) : String :=
  pyCapitalize (pyStrip (replaceUnderscores label))

/-- `merger._add_outline`: skip items without a page index and non-folder
items with a zero page count; otherwise create a node titled by the item's
label if present, else the stem of its base name, prettified only when
`pretty_labels` is set and no explicit label exists.  (Outline creation by
the external writer is modelled as always succeeding.) -/
def _add_outline (item : Entry) (parent : Option (List String))
    (pretty_labels : Bool) : Option OutlineNode :=
  if item.page.isNone then none
  else if item.type ≠ .folder ∧ item.pages.getD 0 = 0 then none
  else
    let label := item.label.getD (pyStem ((item.path.getLast?).getD ""))
    let label := if pretty_labels ∧ item.label.isNone then _prettify_label label else label
    some { title := label
           page_number := item.page.getD 0
           parent := parent
           src := item.path }

/-- The `folders` dictionary of `merge`:
`{x["path"]: x for x in tree if x["type"] == "folder"}` with a dict's
last-binding-wins lookup. -/
def lookupFolder (tree : List Entry) (p : List String) : Option Entry :=
  ((tree.filter (fun e => e.type = .folder)).reverse).find? (fun e => e.path = p)

/-- The mutable state of `merge`'s main loop: the running page index, the
`parents` dictionary (the set of folder paths for which an outline node has
been recorded), the outline nodes created so far, the pages inserted so far
(path and number of pages per item, in emission order), and the processed
items (carrying their assigned `page`). -/
structure MergeState where
  page_index : Nat
  parents : List (List String)
  outlines : List OutlineNode
  inserted : List (List String × Nat)
  done : List Entry
deriving DecidableEq, Repr

/-- One iteration of `merge`'s main loop.  Pages are inserted first, the
item's `page` is set to the running index which then advances by the item's
page count; an image item whose enclosing folder has `only_images` set skips
outline creation (`continue`); looking up a missing parent folder in the
`folders` dictionary raises `KeyError`, modelled by `none`, which aborts the
merge. -/
def mergeStep (folders : List String → Option Entry)
    (pdfPages : List String → Option Nat) (imgReadable : List String → Bool)
    (pretty_labels : Bool) (st : MergeState) (item : Entry) : Option MergeState :=
  let num_inserted := _insert_into_pdf pdfPages imgReadable item
  let num_pages := item.pages.getD 0
  let item' := { item with page := some st.page_index }
  let st' : MergeState :=
    { page_index := st.page_index + num_pages
      parents := st.parents
      outlines := st.outlines
      inserted := st.inserted ++ [(item.path, num_inserted)]
      done := st.done ++ [item'] }
  let emitOutline : MergeState → MergeState := fun b =>
    let parentRef :=
      if b.parents.contains item.path.dropLast then some item.path.dropLast else none
    let outline := _add_outline item' parentRef pretty_labels
    let b := { b with outlines := b.outlines ++ outline.toList }
    if item.type = .folder then { b with parents := b.parents ++ [item.path] } else b
  if item.type = .img then
    match folders item.path.dropLast with
    | none => none
    | some f => if f.only_images then some st' else some (emitOutline st')
  else
    some (emitOutline st')

/-- The final result of a completed `merge`. -/
structure MergeResult where
  tree : List Entry
  inserted : List (List String × Nat)
  outlines : List OutlineNode
  warnings : List (List String)
deriving DecidableEq, Repr

/-- `merger.merge` (its structural content: page counting, the pre-pass over
folder page indices, and the main loop assigning page positions, inserting
pages and building the outline; the PDF page objects themselves, page-size
and dpi handling belong to the external collaborators).  Returns `none` when
the loop raises `KeyError` on a missing parent folder. -/
def merge (pdfPages : List String → Option Nat) (imgReadable : List String → Bool)
    (pretty_labels : Bool) (tree : List Entry) : Option MergeResult :=
  let upd := _update_files_page_count pdfPages tree
  let tree2 := _assign_folder_page_indices upd.1
  let folders := lookupFolder tree2
  match tree2.foldlM (mergeStep folders pdfPages imgReadable pretty_labels)
      { page_index := 0, parents := [], outlines := [], inserted := [], done := [] } with
  | some st =>
      some { tree := st.done, inserted := st.inserted,
             outlines := st.outlines, warnings := upd.2 }
  | none => none

end Mkpdf

namespace Mkpdf

/-! ## Derived definitions used by the verification -/

/-- The default child ordering of the selection loop: the children's names in
case-insensitive alphabetical order, i.e. the order used when no `.order`
file is present. -/
def defaultOrderNames (children : FSList) : List String :=
  stableSort (fun a b => strLe (lowerStr a) (lowerStr b))
    (children.toList.map FSEntry.name)

/-- `p` is a proper prefix of `q` (a strict ancestor path). -/
def properPrefix (p q : List String) : Prop := p <+: q ∧ p ≠ q

/-- The pre-order contiguity invariant of an emission sequence: wherever the
sequence is split around an element `x`, the selected descendants of `x`
(the entries whose path properly extends `x`) are exactly one contiguous
block placed immediately after `x`, and no entry before `x` is a descendant
of `x`. -/
def PreOrderOut (L : List (List String)) : Prop :=
  ∀ l₁ x l₂, L = l₁ ++ x :: l₂ →
    ∃ d, (∀ q ∈ l₂.take d, properPrefix x q) ∧
         (∀ q ∈ l₂.drop d, ¬ x <+: q) ∧
         (∀ q ∈ l₁, ¬ properPrefix x q)

/-- The treatment of one child inside the selection loop: skip invalid
children and marker/dot names, recurse into directories, filter and emit
files.  This is the body of the per-child part of `walkFuel`, given a name so
that proofs can unfold it case by case. -/
def emitChild (hash : String → Int) (includes excludes : List (String → Bool))
    (fuel : Nat) (rel_parts : List String) (child : FSEntry) : List (List String) :=
  if (_is_valid child) = false then []
  else if dotSkip child.name then []
  else
    match child with
    | .dir _ _ _ _ _ _ =>
        walkFuel hash includes excludes fuel child (rel_parts ++ [child.name])
    | .file n =>
        if _match_filters (renderRel (rel_parts ++ [n])) includes excludes
        then [rel_parts ++ [n]] else []

/-- A well-formed directory snapshot: within every directory the children's
names are pairwise distinct, as they are in a real directory listing. -/
inductive WFTree : FSEntry → Prop where
  | file (n : String) : WFTree (.file n)
  | dir (name : String) (hasIgnore : Bool) (orderFile : Option (List String))
      (titleFile labelFile : Option String) (children : FSList)
      (hnd : (children.toList.map FSEntry.name).Nodup)
      (hch : ∀ c ∈ children.toList, WFTree c) :
      WFTree (.dir name hasIgnore orderFile titleFile labelFile children)

/-- The page count an item contributes to the cursor: `item.get("pages", 0)`. -/
def entryPages (e : Entry) : Nat := e.pages.getD 0

/-- Pass-1 pagination as a function: give every entry the running cursor as
its `page`, advancing the cursor by the entry's page count. -/
def paginate (c : Nat) : List Entry → List Entry
  | [] => []
  | e :: rest => { e with page := some c } :: paginate (c + entryPages e) rest

/-- The total page count of a tree segment. -/
def totalPages (l : List Entry) : Nat := (l.map entryPages).sum

/-- The title `_add_outline` gives an item's node. -/
def outlineTitle (pretty_labels : Bool) (item : Entry) : String :=
  let label := item.label.getD (pyStem ((item.path.getLast?).getD ""))
  if pretty_labels ∧ item.label.isNone then _prettify_label label else label

/-- Whether the main loop creates an outline node for an item (given the
`folders` lookup): an image in an image-only folder is skipped, and so is a
non-folder with zero pages. -/
def outlineEmits (folders : List String → Option Entry) (item : Entry) : Bool :=
  if item.type = .img ∧ (((folders item.path.dropLast).map Entry.only_images).getD false) then false
  else if item.type ≠ .folder ∧ item.pages.getD 0 = 0 then false
  else true

/-- The fields of an entry that no stage of the merge modifies. -/
def skel (e : Entry) : List String × EKind × Bool × Option String :=
  (e.path, e.type, e.only_images, e.label)

/-- The backward-fill value the spec prescribes for position `i`: the
`startPage` of the nearest later entry with a positive page count, or the
total page count of the document when no such entry exists. -/
def backfillTarget (l : List Entry) (i : Nat) : Nat :=
  match (l.drop (i + 1)).find? (fun e => decide (0 < entryPages e)) with
  | some e => e.page.getD 0
  | none => totalPages l

/-- A concrete image-only folder: one folder with `only_images` and two
images. -/
def c7Tree : List Entry :=
  [{ path := ["A"], type := .folder, title := "A", only_images := true },
   { path := ["A", "x.jpg"], type := .img },
   { path := ["A", "y.png"], type := .img }]

/-- The merge result on `c7Tree` with no readable pdfs and all images
readable. -/
def c7Res : MergeResult :=
  { tree := [{ path := ["A"], type := .folder, title := "A", only_images := true,
               page := some 0 },
             { path := ["A", "x.jpg"], type := .img, pages := some 1, page := some 0 },
             { path := ["A", "y.png"], type := .img, pages := some 1, page := some 1 }],
    inserted := [(["A"], 0), (["A", "x.jpg"], 1), (["A", "y.png"], 1)],
    outlines := [{ title := "A", page_number := 0, parent := none, src := ["A"] }],
    warnings := [] }

/-- Erase the `"title"` key of an item (the field `_resolve_title` fills). -/
def dropTitle (e : Entry) : Entry := { e with title := "" }

/-- The one-folder tree whose `.title` text is "From File". -/
def c10Tree : List Entry :=
  [{ path := ["docs"], type := .folder, title := "From File" }]

/-- The same tree retitled. -/
def c10TreeB : List Entry :=
  [{ path := ["docs"], type := .folder, title := "Other" }]

/-- The merge result on `c10Tree`. -/
def c10Res : MergeResult :=
  { tree := [{ path := ["docs"], type := .folder, title := "From File",
               page := some 0 }],
    inserted := [(["docs"], 0)],
    outlines := [{ title := "docs", page_number := 0, parent := none,
                   src := ["docs"] }],
    warnings := [] }

end Mkpdf


namespace Mkpdf

/-! ## Support lemmas: sizes, fuel congruence, stable sort -/

theorem size_pos (fs : FSEntry) : 0 < fs.size := by
  cases fs <;> simp [FSEntry.size]

theorem size_le_of_mem (c : FSEntry) :
    ∀ (l : FSList), c ∈ l.toList → FSEntry.size c ≤ l.size
  | .nil, h => by simp [FSList.toList] at h
  | .cons a t, h => by
      rcases (by simpa [FSList.toList] using h : c = a ∨ c ∈ t.toList) with rfl | hm
      · simp [FSList.size]
      · have := size_le_of_mem c t hm
        have hp : 0 < FSEntry.size a := size_pos a
        simp [FSList.size]; omega

/-- The walk result does not depend on the fuel, as long as the fuel is at
least the size of the tree. -/
theorem walkFuel_congr (hash : String → Int) (includes excludes : List (String → Bool)) :
    ∀ (fs : FSEntry) (f1 f2 : Nat) (rel : List String),
    fs.size ≤ f1 → fs.size ≤ f2 →
    walkFuel hash includes excludes f1 fs rel = walkFuel hash includes excludes f2 fs rel
  | .file m, f1, f2, rel, h1, h2 => by
      have hp : 0 < FSEntry.size (.file m) := size_pos _
      match f1, f2 with
      | a+1, b+1 => simp [walkFuel]
      | 0, _ => omega
      | _+1, 0 => omega
  | .dir n ig ordf tf lf children, f1, f2, rel, h1, h2 => by
      have hp : 0 < FSEntry.size (.dir n ig ordf tf lf children) := size_pos _
      match f1, f2 with
      | 0, _ => omega
      | _+1, 0 => omega
      | a+1, b+1 =>
        by_cases hig : _should_ignore ig n
        · simp [walkFuel, hig]
        · by_cases hmf : _match_filters (renderRel rel) includes excludes
          case neg => simp [walkFuel, hig, hmf]
          case pos =>
          simp only [walkFuel, hig, hmf]
          refine congrArg (fun X =>
            rel :: (orderChildren hash ordf X).flatMap (fun pr => pr.2)) ?_
          apply List.map_congr_left
          intro c hc
          have hcs : FSEntry.size c ≤ FSList.size children := size_le_of_mem c children hc
          have hds : FSEntry.size (.dir n ig ordf tf lf children) = 1 + FSList.size children := rfl
          cases c with
          | file m => rfl
          | dir m ig2 o2 t2 l2 ch2 =>
            simp only []
            rw [walkFuel_congr hash includes excludes (.dir m ig2 o2 t2 l2 ch2) a b]
            · omega
            · omega
termination_by fs => fs.size
decreasing_by
  simp_wf
  omega

/-- Unfolding `select_paths` at any sufficient fuel. -/
theorem select_paths_eq_fuel (hash : String → Int)
    (includes excludes : List (String → Bool)) (root : FSEntry) (fuel : Nat)
    (h : root.size ≤ fuel) :
    select_paths hash includes excludes root = walkFuel hash includes excludes fuel root [] :=
  walkFuel_congr hash includes excludes root root.size fuel [] le_rfl h

theorem insertOrdered_perm (le : α → α → Bool) (a : α) :
    ∀ l : List α, List.Perm (insertOrdered le a l) (a :: l)
  | [] => List.Perm.refl _
  | b :: t => by
      simp only [insertOrdered]
      split
      · exact List.Perm.refl _
      · exact ((insertOrdered_perm le a t).cons b).trans (List.Perm.swap a b t)

theorem stableSort_perm (le : α → α → Bool) :
    ∀ l : List α, List.Perm (stableSort le l) l
  | [] => List.Perm.refl _
  | a :: t =>
      (insertOrdered_perm le a (stableSort le t)).trans ((stableSort_perm le t).cons a)

/-- A list already sorted for `le` is a fixed point of `stableSort`. -/
theorem stableSort_of_pairwise (le : α → α → Bool) :
    ∀ l : List α, l.Pairwise (fun a b => le a b = true) → stableSort le l = l := by
  intro l h
  induction l with
  | nil => rfl
  | cons a t ih =>
      rw [List.pairwise_cons] at h
      simp only [stableSort]
      rw [ih h.2]
      cases t with
      | nil => rfl
      | cons b t' =>
          simp only [insertOrdered]
          rw [if_pos (h.1 b (List.mem_cons_self b t'))]

/-- `stableSort` commutes with mapping, for compatible comparators. -/
theorem map_insertOrdered (f : α → β) (le : α → α → Bool) (le' : β → β → Bool)
    (hc : ∀ a b, le' (f a) (f b) = le a b) (a : α) :
    ∀ l : List α, (insertOrdered le a l).map f = insertOrdered le' (f a) (l.map f)
  | [] => rfl
  | b :: t => by
      simp only [insertOrdered, List.map_cons, hc]
      split
      · simp
      · simp [map_insertOrdered f le le' hc a t]

theorem map_stableSort (f : α → β) (le : α → α → Bool) (le' : β → β → Bool)
    (hc : ∀ a b, le' (f a) (f b) = le a b) :
    ∀ l : List α, (stableSort le l).map f = stableSort le' (l.map f)
  | [] => rfl
  | a :: t => by
      simp only [stableSort, List.map_cons]
      rw [map_insertOrdered f le le' hc,
        map_stableSort f le le' hc t]

end Mkpdf

namespace Mkpdf

/-! ## C5: filters apply to the root's own relative path, rendered "." -/

/-- C5: the include/exclude pattern filters are applied to the traversal
root's own relative path, which is the empty relative path rendered as the
string "."; for every non-empty `includes` list in which no pattern matches
".", `select_paths` prunes the root itself and returns the empty sequence. -/
theorem c5_nonmatching_includes_prune_root (hash : String → Int)
    (includes excludes : List (String → Bool)) (name : String) (hasIgnore : Bool)
    (orderFile : Option (List String)) (titleFile labelFile : Option String)
    (children : FSList) (hne : includes ≠ [])
    (hdot : ∀ pattern ∈ includes, pattern "." = false) :
    select_paths hash includes excludes
      (.dir name hasIgnore orderFile titleFile labelFile children) = [] := by
  rw [select_paths_eq_fuel hash includes excludes _ (FSList.size children + 1)
    (by simp [FSEntry.size]; omega)]
  have hne' : includes.isEmpty = false := by
    cases includes with
    | nil => exact absurd rfl hne
    | cons p t => rfl
  have hany : includes.any (fun pattern => pattern ".") = false := by
    rw [List.any_eq_false]
    intro pattern hp
    simp [hdot pattern hp]
  have hmf : _match_filters (renderRel []) includes excludes = false := by
    simp [_match_filters, renderRel, hne', hany]
  by_cases hig : _should_ignore hasIgnore name
  · simp [walkFuel, hig]
  · simp [walkFuel, hig, hmf]

/-- Witness for C5 at a concrete input: one include pattern that matches only
"sub", a root with one pdf child. -/
theorem c5_nonmatching_includes_prune_root_witness :
    ([fun s => s == "sub"] : List (String → Bool)) ≠ []
    ∧ (∀ pattern ∈ ([fun s => s == "sub"] : List (String → Bool)), pattern "." = false)
    ∧ select_paths (fun _ => 0) [fun s => s == "sub"] []
        (.dir "root" false none none none (.ofList [.file "c.pdf"])) = [] := by
  refine ⟨by simp, ?_, ?_⟩
  · intro pattern hp
    rw [List.mem_singleton] at hp
    subst hp
    rfl
  · exact c5_nonmatching_includes_prune_root (fun _ => 0) [fun s => s == "sub"] []
      "root" false none none none (.ofList [.file "c.pdf"]) (by simp)
      (by intro pattern hp; rw [List.mem_singleton] at hp; subst hp; rfl)

/-! ## C1 and C2: the `.order` fallback key uses Python's randomized `hash` -/

/-- C1 (evaluation of the defect): with an `.order` file present, the
ordering of children absent from the hint list depends on the per-process
`hash` value of their lowercased names, so two runs of `select_paths` on the
identical snapshot can produce different sequences.  With hint list `["b"]`
and unlisted directories `a` and `c`: a process whose string hash is
constantly `0` emits `a` before `c`, while one hashing `"a"` to `5` emits `c`
before `a`. -/
theorem c1_select_paths_depends_on_process_hash :
    select_paths (fun _ => 0) [] []
        (.dir "root" false (some ["b"]) none none
          (.ofList [.dir "a" false none none none .nil,
                    .dir "c" false none none none .nil]))
      = [[], ["a"], ["c"]]
    ∧ select_paths (fun s => if s = "a" then 5 else 0) [] []
        (.dir "root" false (some ["b"]) none none
          (.ofList [.dir "a" false none none none .nil,
                    .dir "c" false none none none .nil]))
      = [[], ["c"], ["a"]]
    ∧ ([[], ["a"], ["c"]] : List (List String)) ≠ [[], ["c"], ["a"]] := by
  refine ⟨by decide, by decide, by decide⟩

/-- C2 (evaluation of the defect): the fallback sort key of an unlisted child
is `len(preferred_map) + hash(name.lower())`, and Python's string hash can be
negative, in which case the unlisted child sorts *before* all hinted
children: with order hints `["b", "a"]`, children `{a, b, c}` and a process
hashing `"c"` to `-3`, the resulting child order is `c, b, a`, not the
claimed `b, a, c`. -/
theorem c2_unlisted_child_can_precede_hinted :
    select_paths (fun s => if s = "c" then -3 else 0) [] []
        (.dir "root" false (some ["b", "a"]) none none
          (.ofList [.dir "a" false none none none .nil,
                    .dir "b" false none none none .nil,
                    .dir "c" false none none none .nil]))
      = [[], ["c"], ["b"], ["a"]]
    ∧ ([[], ["c"], ["b"], ["a"]] : List (List String)) ≠ [[], ["b"], ["a"], ["c"]] := by
  refine ⟨by decide, by decide⟩

end Mkpdf

namespace Mkpdf

/-! ## C9: an order file equal to the default ordering is a no-op -/

theorem enumFrom_filterMap_of_not_mem (n : String) :
    ∀ (l : List String) (k : Nat), n ∉ l →
      (l.enumFrom k).filterMap
        (fun p => if p.2 = n then some p.1 else none) = []
  | [], _, _ => rfl
  | a :: t, k, h => by
      have ha : ¬(a = n) := fun e => h (by simp [e])
      have ht : n ∉ t := fun e => h (List.mem_cons_of_mem a e)
      simp only [List.enumFrom, List.filterMap_cons]
      rw [if_neg ha]
      exact enumFrom_filterMap_of_not_mem n t (k + 1) ht

theorem enumFrom_filterMap_of_nodup :
    ∀ (l : List String) (k i : Nat) (h : i < l.length), l.Nodup →
      (l.enumFrom k).filterMap
        (fun p => if p.2 = l.get ⟨i, h⟩ then some p.1 else none) = [k + i]
  | [], _, _, h, _ => absurd h (by simp)
  | a :: t, k, 0, h, hn => by
      have hat : a ∉ t := (List.nodup_cons.mp hn).1
      simp only [List.enumFrom, List.filterMap_cons, List.get]
      rw [if_pos trivial, enumFrom_filterMap_of_not_mem a t (k + 1) hat]
      simp
  | a :: t, k, i + 1, h, hn => by
      have hlt : i < t.length := by simpa using h
      have hmem : t.get ⟨i, hlt⟩ ∈ t := List.get_mem t i hlt
      have ha : ¬(a = t.get ⟨i, hlt⟩) := by
        intro e
        exact (List.nodup_cons.mp hn).1 (e ▸ hmem)
      simp only [List.enumFrom, List.filterMap_cons, List.get]
      rw [if_neg ha, enumFrom_filterMap_of_nodup t (k + 1) i hlt (List.nodup_cons.mp hn).2]
      have harith : k + 1 + i = k + (i + 1) := by omega
      rw [harith]

/-- On a duplicate-free hint list, the hint map sends the `i`-th name to `i`. -/
theorem prefGet_get_of_nodup (l : List String) (hn : l.Nodup) (i : Nat)
    (h : i < l.length) : prefGet l (l.get ⟨i, h⟩) = some i := by
  unfold prefGet
  rw [show l.enum = l.enumFrom 0 from rfl, enumFrom_filterMap_of_nodup l 0 i h hn]
  simp

/-- An `.order` file listing the children's names in the default order leaves
the ordering of the child/result pairs unchanged. -/
theorem orderChildren_default (hash : String → Int) (pairs : List (FSEntry × β))
    (hnod : (pairs.map (fun pr => pr.1.name)).Nodup) :
    orderChildren hash
      (some (stableSort (fun a b => strLe (lowerStr a) (lowerStr b))
        (pairs.map (fun pr => pr.1.name)))) pairs
      = orderChildren hash none pairs := by
  unfold orderChildren
  simp only []
  have hmap :
      (stableSort (fun a b => strLe (lowerStr a.1.name) (lowerStr b.1.name)) pairs).map
        (fun pr : FSEntry × β => pr.1.name)
      = stableSort (fun a b => strLe (lowerStr a) (lowerStr b))
          (pairs.map (fun pr => pr.1.name)) :=
    map_stableSort (fun pr : FSEntry × β => pr.1.name)
      (fun a b => strLe (lowerStr a.1.name) (lowerStr b.1.name))
      (fun a b => strLe (lowerStr a) (lowerStr b))
      (fun a b => rfl) pairs
  have hnodh : (stableSort (fun a b => strLe (lowerStr a) (lowerStr b))
      (pairs.map (fun pr => pr.1.name))).Nodup :=
    ((stableSort_perm _ (pairs.map (fun pr => pr.1.name))).nodup_iff).mpr hnod
  have hpwh : (stableSort (fun a b => strLe (lowerStr a) (lowerStr b))
      (pairs.map (fun pr => pr.1.name))).Pairwise
        (fun x y =>
          decide (sortKey hash
              (stableSort (fun a b => strLe (lowerStr a) (lowerStr b))
                (pairs.map (fun pr => pr.1.name))) x
            ≤ sortKey hash
              (stableSort (fun a b => strLe (lowerStr a) (lowerStr b))
                (pairs.map (fun pr => pr.1.name))) y) = true) := by
    rw [List.pairwise_iff_get]
    intro i j hij
    obtain ⟨iv, hvi⟩ := i
    obtain ⟨jv, hvj⟩ := j
    rw [decide_eq_true_eq]
    have hi := prefGet_get_of_nodup _ hnodh iv hvi
    have hj := prefGet_get_of_nodup _ hnodh jv hvj
    simp only [sortKey, hi, hj]
    have hij2 : iv < jv := hij
    exact_mod_cast Nat.le_of_lt hij2
  have hpw : (stableSort (fun a b => strLe (lowerStr a.1.name) (lowerStr b.1.name)) pairs).Pairwise
      (fun a b : FSEntry × β =>
        decide (sortKey hash
            (stableSort (fun a b => strLe (lowerStr a) (lowerStr b))
              (pairs.map (fun pr => pr.1.name))) a.1.name
          ≤ sortKey hash
            (stableSort (fun a b => strLe (lowerStr a) (lowerStr b))
              (pairs.map (fun pr => pr.1.name))) b.1.name) = true) := by
    refine (List.pairwise_map
      (R := fun x y =>
        decide (sortKey hash
            (stableSort (fun a b => strLe (lowerStr a) (lowerStr b))
              (pairs.map (fun pr => pr.1.name))) x
          ≤ sortKey hash
            (stableSort (fun a b => strLe (lowerStr a) (lowerStr b))
              (pairs.map (fun pr => pr.1.name))) y) = true)
      (f := fun pr : FSEntry × β => pr.1.name)).mp ?_
    rw [hmap]
    exact hpwh
  exact stableSort_of_pairwise _ _ hpw

/-- `orderChildren_default`, phrased against the children list that the pairs
were built from. -/
theorem orderChildren_defaultNames (hash : String → Int) (children : FSList)
    (pairs : List (FSEntry × β))
    (hpn : pairs.map (fun pr => pr.1.name) = children.toList.map FSEntry.name)
    (hnod : (children.toList.map FSEntry.name).Nodup) :
    orderChildren hash (some (defaultOrderNames children)) pairs
      = orderChildren hash none pairs := by
  have h1 : defaultOrderNames children
      = stableSort (fun a b => strLe (lowerStr a) (lowerStr b))
          (pairs.map (fun pr => pr.1.name)) := by
    rw [defaultOrderNames, hpn]
  rw [h1]
  exact orderChildren_default hash pairs (by rw [hpn]; exact hnod)

/-- C9: running the selection with an explicit order file whose lines list
the folder's children exactly in the default case-insensitive alphabetical
order produces the same sequence as running it with no order file present. -/
theorem c9_default_order_file_is_noop (hash : String → Int)
    (includes excludes : List (String → Bool)) (name : String) (hasIgnore : Bool)
    (titleFile labelFile : Option String) (children : FSList)
    (hnod : (children.toList.map FSEntry.name).Nodup) :
    select_paths hash includes excludes
      (.dir name hasIgnore (some (defaultOrderNames children)) titleFile labelFile children)
    = select_paths hash includes excludes
      (.dir name hasIgnore none titleFile labelFile children) := by
  rw [select_paths_eq_fuel hash includes excludes _ (FSList.size children + 1)
      (by simp [FSEntry.size]; omega),
    select_paths_eq_fuel hash includes excludes _ (FSList.size children + 1)
      (by simp [FSEntry.size]; omega)]
  by_cases hig : _should_ignore hasIgnore name
  · simp [walkFuel, hig]
  · by_cases hmf : _match_filters (renderRel []) includes excludes
    case neg => simp [walkFuel, hig, hmf]
    case pos =>
    simp only [walkFuel, hig, hmf]
    refine congrArg (fun (X : List (FSEntry × List (List String))) =>
      ([] : List String) :: List.flatMap X (fun pr => pr.2)) ?_
    refine orderChildren_defaultNames hash children _ ?_ hnod
    rw [List.map_map]
    rfl

/-- Witness for C9 at a concrete input. -/
theorem c9_default_order_file_is_noop_witness :
    ((FSList.ofList [.dir "b" false none none none .nil, .file "A.pdf"]).toList.map
      FSEntry.name).Nodup
    ∧ select_paths (fun _ => 0) [] []
        (.dir "root" false
          (some (defaultOrderNames (FSList.ofList
            [.dir "b" false none none none .nil, .file "A.pdf"])))
          none none
          (FSList.ofList [.dir "b" false none none none .nil, .file "A.pdf"]))
      = select_paths (fun _ => 0) [] []
        (.dir "root" false none none none
          (FSList.ofList [.dir "b" false none none none .nil, .file "A.pdf"])) :=
  ⟨by decide,
   c9_default_order_file_is_noop (fun _ => 0) [] [] "root" false none none
     (FSList.ofList [.dir "b" false none none none .nil, .file "A.pdf"]) (by decide)⟩

end Mkpdf

namespace Mkpdf

/-! ## C8: the emission sequence is a pre-order traversal -/

theorem preOrderOut_nil : PreOrderOut [] := by
  intro l₁ x l₂ h
  exact absurd h (by simp)

theorem preOrderOut_singleton (q : List String) : PreOrderOut [q] := by
  intro l₁ x l₂ h
  have : l₁ = [] ∧ x = q ∧ l₂ = [] := by
    cases l₁ with
    | nil => simpa using h.symm
    | cons a t =>
        rcases (by simpa using h.symm : a = q ∧ t ++ x :: l₂ = []) with ⟨_, h2⟩
        exact absurd h2 (by simp)
  rcases this with ⟨rfl, rfl, rfl⟩
  exact ⟨0, by simp, by simp, by simp⟩

/-- Locating an element inside a flattened list of blocks. -/
theorem flatten_split {α : Type _} :
    ∀ (bs : List (List α)) (l₁ l₂ : List α) (y : α),
      bs.flatten = l₁ ++ y :: l₂ →
      ∃ pre B post B₁ B₂, bs = pre ++ B :: post ∧ B = B₁ ++ y :: B₂ ∧
        l₁ = pre.flatten ++ B₁ ∧ l₂ = B₂ ++ post.flatten
  | [], l₁, l₂, y, h => absurd h (by simp)
  | B :: bs, l₁, l₂, y, h => by
      rw [List.flatten_cons, List.append_eq_append_iff] at h
      rcases h with ⟨a', ha1, ha2⟩ | ⟨c', hc1, hc2⟩
      · obtain ⟨pre, B', post, B₁, B₂, hbs, hB, hl₁, hl₂⟩ :=
          flatten_split bs a' l₂ y ha2
        exact ⟨B :: pre, B', post, B₁, B₂, by rw [hbs]; rfl, hB,
          by rw [ha1, hl₁, List.flatten_cons, List.append_assoc], hl₂⟩
      · cases c' with
        | nil =>
            obtain ⟨pre, B', post, B₁, B₂, hbs, hB, hl₁, hl₂⟩ :=
              flatten_split bs [] l₂ y (by simpa using hc2.symm)
            refine ⟨B :: pre, B', post, B₁, B₂, by rw [hbs]; rfl, hB, ?_, hl₂⟩
            have h1 : pre.flatten ++ B₁ = [] := hl₁.symm
            rcases List.append_eq_nil.mp h1 with ⟨h2, h3⟩
            rw [List.flatten_cons, h2, h3]
            simp [hc1]
        | cons y' B₂' =>
            rcases (by simpa using hc2 : y = y' ∧ l₂ = B₂' ++ bs.flatten) with ⟨rfl, rfl⟩
            exact ⟨[], B, bs, l₁, B₂', by simp, by simpa using hc1, by simp, rfl⟩

/-- Membership transfer through `orderChildren`. -/
theorem orderChildren_perm (hash : String → Int) (orderFile : Option (List String))
    (pairs : List (FSEntry × β)) :
    List.Perm (orderChildren hash orderFile pairs) pairs := by
  unfold orderChildren
  cases orderFile with
  | none => exact stableSort_perm _ pairs
  | some preferred =>
      exact (stableSort_perm _ _).trans (stableSort_perm _ pairs)

theorem mem_orderChildren (hash : String → Int) (orderFile : Option (List String))
    (pairs : List (FSEntry × β)) (pr : FSEntry × β) :
    pr ∈ orderChildren hash orderFile pairs ↔ pr ∈ pairs :=
  (orderChildren_perm hash orderFile pairs).mem_iff

/-- `walkFuel` on a directory, expressed with `emitChild`. -/
theorem walkFuel_dir (hash : String → Int) (includes excludes : List (String → Bool))
    (fuel : Nat) (name : String) (hasIgnore : Bool) (orderFile : Option (List String))
    (titleFile labelFile : Option String) (children : FSList) (rel_parts : List String) :
    walkFuel hash includes excludes (fuel + 1)
      (.dir name hasIgnore orderFile titleFile labelFile children) rel_parts
    = if _should_ignore hasIgnore name then []
      else if (_match_filters (renderRel rel_parts) includes excludes) = false then []
      else rel_parts :: (orderChildren hash orderFile (children.toList.map (fun child =>
          (child, emitChild hash includes excludes fuel rel_parts child)))).flatMap
          (fun pr => pr.2) := rfl

theorem emitChild_dir (hash : String → Int) (includes excludes : List (String → Bool))
    (fuel : Nat) (rel_parts : List String) (n : String) (ig : Bool)
    (o : Option (List String)) (t l : Option String) (c : FSList) :
    emitChild hash includes excludes fuel rel_parts (.dir n ig o t l c)
    = if dotSkip n then []
      else walkFuel hash includes excludes fuel (.dir n ig o t l c) (rel_parts ++ [n]) := by
  simp [emitChild, _is_valid, FSEntry.name]

theorem emitChild_file (hash : String → Int) (includes excludes : List (String → Bool))
    (fuel : Nat) (rel_parts : List String) (n : String) :
    emitChild hash includes excludes fuel rel_parts (.file n)
    = if (_is_pdf n || _is_img n) = false then []
      else if dotSkip n then []
      else if _match_filters (renderRel (rel_parts ++ [n])) includes excludes
      then [rel_parts ++ [n]] else [] := by
  simp only [emitChild, _is_valid, FSEntry.name]

/-- Every path emitted by the walk extends the relative path it starts
from. -/
theorem walk_mem_prefix (hash : String → Int) (includes excludes : List (String → Bool)) :
    ∀ (fuel : Nat) (fs : FSEntry) (rel q : List String),
      q ∈ walkFuel hash includes excludes fuel fs rel → rel <+: q
  | 0, _, _, _, h => absurd h (by simp [walkFuel])
  | _ + 1, .file _, _, _, h => absurd h (by simp [walkFuel])
  | fuel + 1, .dir name hasIgnore orderFile titleFile labelFile children, rel, q, h => by
      rw [walkFuel_dir] at h
      by_cases hig : _should_ignore hasIgnore name
      · rw [if_pos hig] at h
        exact absurd h (by simp)
      · rw [if_neg hig] at h
        by_cases hmf : _match_filters (renderRel rel) includes excludes
        case neg =>
          rw [if_pos (by simp [hmf])] at h
          exact absurd h (by simp)
        case pos =>
        rw [if_neg (by simp [hmf])] at h
        simp only [List.mem_cons, List.mem_flatMap] at h
        rcases h with rfl | ⟨pr, hpr, hq⟩
        · exact List.prefix_refl q
        · rw [mem_orderChildren] at hpr
          rcases List.mem_map.mp hpr with ⟨child, hchild, rfl⟩
          simp only [] at hq
          cases child with
          | dir n2 i2 o2 t2 l2 c2 =>
              rw [emitChild_dir] at hq
              by_cases hd : dotSkip n2
              · rw [if_pos hd] at hq; exact absurd hq (by simp)
              · rw [if_neg hd] at hq
                have := walk_mem_prefix hash includes excludes fuel
                  (.dir n2 i2 o2 t2 l2 c2) (rel ++ [n2]) q hq
                exact (List.prefix_append rel _).trans this
          | file n =>
              rw [emitChild_file] at hq
              by_cases hv : (_is_pdf n || _is_img n) = false
              · rw [if_pos hv] at hq; exact absurd hq (by simp)
              · rw [if_neg hv] at hq
                by_cases hd : dotSkip n
                · rw [if_pos hd] at hq; exact absurd hq (by simp)
                · rw [if_neg hd] at hq
                  by_cases hmf2 : _match_filters (renderRel (rel ++ [n])) includes excludes
                  · rw [if_pos hmf2] at hq
                    rcases (by simpa using hq : q = rel ++ [n]) with rfl
                    exact List.prefix_append rel [n]
                  · rw [if_neg hmf2] at hq
                    exact absurd hq (by simp)

end Mkpdf

namespace Mkpdf

/-- Two differently-tagged extensions of `x` are prefix-incomparable. -/
theorem no_cross_prefix {x q x' : List String} {n m : String}
    (hx' : (x ++ [n]) <+: x') (hq : (x ++ [m]) <+: q) (hnm : n ≠ m) :
    ¬ x' <+: q := by
  intro hcon
  have h1 : (x ++ [n]) <+: q := hx'.trans hcon
  have h2 := List.prefix_or_prefix_of_prefix h1 hq
  have hlen : (x ++ [n]).length = (x ++ [m]).length := by simp
  have heq : x ++ [n] = x ++ [m] := by
    rcases h2 with h | h
    · exact h.eq_of_length hlen
    · exact (h.eq_of_length hlen.symm).symm
  exact hnm (by simpa using heq)

/-- An element followed by the concatenation of tagged descendant blocks is a
valid pre-order emission: the blocks must themselves be valid, every element
of a block must extend the block's tag path `x ++ [tag]`, and distinct blocks
carry distinct tags. -/
theorem preOrderOut_combine (x : List String)
    (bs : List (String × List (List String)))
    (hnd : (bs.map Prod.fst).Nodup)
    (hblocks : ∀ b ∈ bs, PreOrderOut b.2)
    (htag : ∀ b ∈ bs, ∀ q ∈ b.2, (x ++ [b.1]) <+: q) :
    PreOrderOut (x :: (bs.map Prod.snd).flatten) := by
  have hext : ∀ q ∈ (bs.map Prod.snd).flatten, ∃ b ∈ bs, (x ++ [b.1]) <+: q := by
    intro q hq
    rcases List.mem_flatten.mp hq with ⟨B, hB, hqB⟩
    rcases List.mem_map.mp hB with ⟨b, hb, rfl⟩
    exact ⟨b, hb, htag b hb q hqB⟩
  have hproper : ∀ q ∈ (bs.map Prod.snd).flatten, properPrefix x q := by
    intro q hq
    rcases hext q hq with ⟨b, _, hpre⟩
    constructor
    · exact (List.prefix_append x [b.1]).trans hpre
    · intro e
      have := hpre.length_le
      simp [← e] at this
  intro l₁ x' l₂ heq
  cases l₁ with
  | nil =>
      obtain ⟨rfl, hfl⟩ :
          x = x' ∧ (bs.map Prod.snd).flatten = l₂ := by simpa using heq
      subst hfl
      refine ⟨(bs.map Prod.snd).flatten.length, ?_, ?_, by simp⟩
      · intro q hq
        rw [List.take_length] at hq
        exact hproper q hq
      · intro q hq
        rw [List.drop_length] at hq
        exact absurd hq (by simp)
  | cons a t =>
      obtain ⟨rfl, hfl⟩ :
          x = a ∧ (bs.map Prod.snd).flatten = t ++ x' :: l₂ := by simpa using heq
      obtain ⟨pre, B, post, B₁, B₂, hsplit, hB, hl₁, hl₂⟩ := flatten_split _ t l₂ x' hfl
      rcases List.map_eq_append_iff.mp hsplit with ⟨bs₁, bs₂', hbs, hpre, hcons⟩
      rcases List.map_eq_cons_iff.mp hcons with ⟨b, bs₂, hbs2, hbB, hpost⟩
      subst hbs2
      subst hbs
      have hx'B : x' ∈ b.2 := by rw [hbB, hB]; simp
      have hx' : (x ++ [b.1]) <+: x' := htag b (by simp) x' hx'B
      have hPO : PreOrderOut b.2 := hblocks b (by simp)
      obtain ⟨d, hd1, hd2, hd3⟩ := hPO B₁ x' B₂ (by rw [hbB, hB])
      have hnodups : ∀ b', (b' ∈ bs₁ ∨ b' ∈ bs₂) → b'.1 ≠ b.1 := by
        intro b' hb' hfst
        rw [List.map_append, List.map_cons] at hnd
        rcases List.nodup_append.mp hnd with ⟨hn1, hn2, hdisj⟩
        rcases hb' with hb' | hb'
        · exact hdisj (List.mem_map_of_mem Prod.fst hb')
            (by rw [hfst]; exact List.mem_cons_self _ _)
        · exact (List.nodup_cons.mp hn2).1 (hfst ▸ List.mem_map_of_mem Prod.fst hb')
      have hother : ∀ q, (∃ b', (b' ∈ bs₁ ∨ b' ∈ bs₂) ∧ (x ++ [b'.1]) <+: q) →
          ¬ x' <+: q := by
        intro q hq2
        rcases hq2 with ⟨b', hb', hq⟩
        exact no_cross_prefix hx' hq (fun e => hnodups b' hb' e.symm)
      refine ⟨min d B₂.length, ?_, ?_, ?_⟩
      · intro q hq
        rw [hl₂, List.take_append_of_le_length (by omega)] at hq
        have hq2 : q ∈ B₂.take d := by
          have h1 : B₂.take (min d B₂.length) = (B₂.take d).take (min d B₂.length) := by
            rw [List.take_take]
            have h2 : min (min d B₂.length) d = min d B₂.length := by omega
            rw [h2]
          rw [h1] at hq
          exact List.take_subset _ _ hq
        exact hd1 q hq2
      · intro q hq
        rw [hl₂, List.drop_append_of_le_length (by omega)] at hq
        rcases List.mem_append.mp hq with hq | hq
        · by_cases hdb : d ≤ B₂.length
          · have h2 : min d B₂.length = d := by omega
            rw [h2] at hq
            exact hd2 q hq
          · have h2 : min d B₂.length = B₂.length := by omega
            rw [h2, List.drop_length] at hq
            exact absurd hq (by simp)
        · refine hother q ?_
          rcases List.mem_flatten.mp hq with ⟨C, hC, hqC⟩
          rcases List.mem_map.mp (hpost ▸ hC) with ⟨b', hb', rfl⟩
          exact ⟨b', Or.inr hb', htag b' (by simp [hb']) q hqC⟩
      · intro q hq
        rcases List.mem_cons.mp hq with rfl | hq
        · intro hcon
          have h2 := hcon.1.length_le
          have h3 := hx'.length_le
          simp at h2 h3
          omega
        · rw [hl₁] at hq
          rcases List.mem_append.mp hq with hq | hq
          · intro hcon
            refine hother q ?_ hcon.1
            rcases List.mem_flatten.mp hq with ⟨C, hC, hqC⟩
            rcases List.mem_map.mp (hpre ▸ hC) with ⟨b', hb', rfl⟩
            exact ⟨b', Or.inl hb', htag b' (by simp [hb']) q hqC⟩
          · exact hd3 q hq

end Mkpdf

namespace Mkpdf

/-- Everything a child emits extends the child's own path. -/
theorem emitChild_mem_prefix (hash : String → Int)
    (includes excludes : List (String → Bool)) (fuel : Nat) (rel q : List String)
    (c : FSEntry) (hq : q ∈ emitChild hash includes excludes fuel rel c) :
    (rel ++ [c.name]) <+: q := by
  cases c with
  | dir n2 i2 o2 t2 l2 c2 =>
      rw [emitChild_dir] at hq
      by_cases hd : dotSkip n2
      · rw [if_pos hd] at hq; exact absurd hq (by simp)
      · rw [if_neg hd] at hq
        exact walk_mem_prefix hash includes excludes fuel _ _ q hq
  | file n =>
      rw [emitChild_file] at hq
      by_cases hv : (_is_pdf n || _is_img n) = false
      · rw [if_pos hv] at hq; exact absurd hq (by simp)
      · rw [if_neg hv] at hq
        by_cases hd : dotSkip n
        · rw [if_pos hd] at hq; exact absurd hq (by simp)
        · rw [if_neg hd] at hq
          by_cases hmf : _match_filters (renderRel (rel ++ [n])) includes excludes
          · rw [if_pos hmf] at hq
            rcases (by simpa using hq : q = rel ++ [n]) with rfl
            exact List.prefix_refl _
          · rw [if_neg hmf] at hq
            exact absurd hq (by simp)

/-- The walk of a well-formed snapshot satisfies the pre-order invariant, for
every fuel and relative position. -/
theorem walk_preOrderOut (hash : String → Int)
    (includes excludes : List (String → Bool)) (fs : FSEntry) (hwf : WFTree fs) :
    ∀ (fuel : Nat) (rel : List String),
      PreOrderOut (walkFuel hash includes excludes fuel fs rel) := by
  induction hwf with
  | file n =>
      intro fuel rel
      cases fuel with
      | zero => exact preOrderOut_nil
      | succ f => exact preOrderOut_nil
  | dir name hasIgnore orderFile titleFile labelFile children hnd hch ih =>
      intro fuel rel
      cases fuel with
      | zero => exact preOrderOut_nil
      | succ f =>
          rw [walkFuel_dir]
          by_cases hig : _should_ignore hasIgnore name
          · rw [if_pos hig]; exact preOrderOut_nil
          · rw [if_neg hig]
            by_cases hmf : _match_filters (renderRel rel) includes excludes
            case neg => rw [if_pos (by simp [hmf])]; exact preOrderOut_nil
            case pos =>
            rw [if_neg (by simp [hmf])]
            have hform :
                (orderChildren hash orderFile (children.toList.map (fun child =>
                  (child, emitChild hash includes excludes f rel child)))).flatMap
                  (fun pr => pr.2)
                = (((orderChildren hash orderFile (children.toList.map (fun child =>
                    (child, emitChild hash includes excludes f rel child)))).map
                    (fun pr => (pr.1.name, pr.2))).map Prod.snd).flatten := by
              rw [List.map_map, List.flatMap_def]
              rfl
            rw [hform]
            apply preOrderOut_combine
            · rw [List.map_map]
              have hperm : List.Perm
                  ((orderChildren hash orderFile (children.toList.map (fun child =>
                    (child, emitChild hash includes excludes f rel child)))).map
                    (Prod.fst ∘ fun pr => (pr.1.name, pr.2)))
                  (children.toList.map FSEntry.name) := by
                have h1 := (orderChildren_perm hash orderFile
                  (children.toList.map (fun child =>
                    (child, emitChild hash includes excludes f rel child)))).map
                  (Prod.fst ∘ fun pr => (pr.1.name, pr.2))
                refine h1.trans ?_
                rw [List.map_map]
                exact List.Perm.refl _
              exact hperm.nodup_iff.mpr hnd
            · intro b hb
              rcases List.mem_map.mp hb with ⟨pr, hpr, rfl⟩
              rw [mem_orderChildren] at hpr
              rcases List.mem_map.mp hpr with ⟨child, hchild, rfl⟩
              simp only []
              cases child with
              | dir n2 i2 o2 t2 l2 c2 =>
                  rw [emitChild_dir]
                  by_cases hd : dotSkip n2
                  · rw [if_pos hd]; exact preOrderOut_nil
                  · rw [if_neg hd]
                    exact ih _ hchild f (rel ++ [n2])
              | file n =>
                  rw [emitChild_file]
                  by_cases hv : (_is_pdf n || _is_img n) = false
                  · rw [if_pos hv]; exact preOrderOut_nil
                  · rw [if_neg hv]
                    by_cases hd : dotSkip n
                    · rw [if_pos hd]; exact preOrderOut_nil
                    · rw [if_neg hd]
                      by_cases hmf2 : _match_filters (renderRel (rel ++ [n])) includes excludes
                      · rw [if_pos hmf2]; exact preOrderOut_singleton _
                      · rw [if_neg hmf2]; exact preOrderOut_nil
            · intro b hb q hq
              rcases List.mem_map.mp hb with ⟨pr, hpr, rfl⟩
              rw [mem_orderChildren] at hpr
              rcases List.mem_map.mp hpr with ⟨child, hchild, rfl⟩
              simp only [] at hq ⊢
              exact emitChild_mem_prefix hash includes excludes f rel q child hq

/-- C8: for every well-formed directory snapshot, the emitted path sequence
is a valid pre-order traversal of the filtered folder tree: wherever the
sequence is split around an entry `x`, the selected descendants of `x`
(paths properly extending `x`) form exactly one contiguous block immediately
after `x`, before any sibling, and no earlier entry is a descendant of
`x`. -/
theorem c8_select_paths_preorder (hash : String → Int)
    (includes excludes : List (String → Bool)) (root : FSEntry)
    (hwf : WFTree root) :
    PreOrderOut (select_paths hash includes excludes root) :=
  walk_preOrderOut hash includes excludes root hwf root.size []

/-- Witness for C8 at a concrete input. -/
theorem c8_select_paths_preorder_witness :
    WFTree (.dir "root" false none none none (.ofList
      [.dir "b" false none none none (.ofList [.file "c.pdf"]), .file "a.pdf"]))
    ∧ PreOrderOut (select_paths (fun _ => 0) [] []
        (.dir "root" false none none none (.ofList
          [.dir "b" false none none none (.ofList [.file "c.pdf"]), .file "a.pdf"]))) := by
  have hwf : WFTree (.dir "root" false none none none (.ofList
      [.dir "b" false none none none (.ofList [.file "c.pdf"]), .file "a.pdf"])) := by
    refine .dir _ _ _ _ _ _ (by decide) ?_
    intro c hc
    rcases (by simpa [FSList.ofList, FSList.toList] using hc :
        c = .dir "b" false none none none (.ofList [.file "c.pdf"]) ∨ c = .file "a.pdf")
      with rfl | rfl
    · refine .dir _ _ _ _ _ _ (by decide) ?_
      intro c hc
      rcases (by simpa [FSList.ofList, FSList.toList] using hc : c = .file "c.pdf") with rfl
      exact .file _
    · exact .file _
  exact ⟨hwf, c8_select_paths_preorder (fun _ => 0) [] [] _ hwf⟩

end Mkpdf

namespace Mkpdf

/-! ## merger.py: the shape of the main loop -/

theorem paginate_length (c : Nat) : ∀ (l : List Entry), (paginate c l).length = l.length
  | [] => rfl
  | e :: rest => by
      rw [paginate, List.length_cons, List.length_cons, paginate_length _ rest]

/-- Evaluating `_add_outline` on an item whose `page` was just set. -/
theorem _add_outline_eval (e : Entry) (pref : Option (List String)) (pl : Bool) (c : Nat) :
    _add_outline { e with page := some c } pref pl
    = if e.type ≠ .folder ∧ e.pages.getD 0 = 0 then none
      else some { title := outlineTitle pl e, page_number := c,
                  parent := pref, src := e.path } := by
  rw [_add_outline]
  rw [if_neg (by simp)]
  by_cases hz : e.type ≠ .folder ∧ e.pages.getD 0 = 0
  · rw [if_pos (by simpa using hz), if_pos hz]
  · rw [if_neg (by simpa using hz), if_neg hz]
    simp [outlineTitle]

/-- One step of `mergeStep`, decomposed. -/
theorem mergeStep_parts (F : List String → Option Entry)
    (pdf : List String → Option Nat) (img : List String → Bool) (pl : Bool)
    (st st' : MergeState) (e : Entry)
    (h : mergeStep F pdf img pl st e = some st') :
    st'.done = st.done ++ [{ e with page := some st.page_index }] ∧
    st'.page_index = st.page_index + entryPages e ∧
    st'.inserted = st.inserted ++ [(e.path, _insert_into_pdf pdf img e)] ∧
    st'.outlines = st.outlines ++ (if outlineEmits F e
        then [{ title := outlineTitle pl e,
                page_number := st.page_index,
                parent := if st.parents.contains e.path.dropLast
                          then some e.path.dropLast else none,
                src := e.path }]
        else []) := by
  unfold mergeStep at h
  simp only [_add_outline_eval] at h
  by_cases himg : e.type = .img
  · rw [if_pos himg] at h
    cases hf : F e.path.dropLast with
    | none => rw [hf] at h; exact absurd h (by simp)
    | some f =>
        rw [hf] at h
        simp only [] at h
        by_cases honly : f.only_images
        · rw [if_pos honly] at h
          obtain rfl : _ = st' := Option.some_inj.mp h
          have hemits : outlineEmits F e = false := by
            simp [outlineEmits, himg, hf, honly]
          rw [hemits]
          exact ⟨rfl, rfl, rfl, by simp⟩
        · rw [if_neg honly] at h
          rw [if_neg (by simp [himg])] at h
          by_cases hz : e.pages.getD 0 = 0
          · rw [if_pos ⟨by simp [himg], hz⟩] at h
            obtain rfl : _ = st' := Option.some_inj.mp h
            have hemits : outlineEmits F e = false := by
              simp [outlineEmits, himg, hf, honly, hz]
            rw [hemits]
            exact ⟨rfl, rfl, rfl, by simp⟩
          · rw [if_neg (by simp [hz])] at h
            obtain rfl : _ = st' := Option.some_inj.mp h
            have hemits : outlineEmits F e = true := by
              simp [outlineEmits, himg, hf, honly, hz]
            rw [hemits]
            exact ⟨rfl, rfl, rfl, by simp⟩
  · rw [if_neg himg] at h
    by_cases hfold : e.type = .folder
    · rw [if_pos hfold] at h
      rw [if_neg (by simp [hfold])] at h
      obtain rfl : _ = st' := Option.some_inj.mp h
      have hemits : outlineEmits F e = true := by
        simp [outlineEmits, himg, hfold]
      rw [hemits]
      exact ⟨rfl, rfl, rfl, by simp⟩
    · rw [if_neg hfold] at h
      by_cases hz : e.pages.getD 0 = 0
      · rw [if_pos ⟨by simp [hfold], hz⟩] at h
        obtain rfl : _ = st' := Option.some_inj.mp h
        have hemits : outlineEmits F e = false := by
          simp [outlineEmits, himg, hfold, hz]
        rw [hemits]
        exact ⟨rfl, rfl, rfl, by simp⟩
      · rw [if_neg (by simp [hz])] at h
        obtain rfl : _ = st' := Option.some_inj.mp h
        have hemits : outlineEmits F e = true := by
          simp [outlineEmits, himg, hfold, hz]
        rw [hemits]
        exact ⟨rfl, rfl, rfl, by simp⟩

end Mkpdf

namespace Mkpdf

theorem totalPages_cons (e : Entry) (rest : List Entry) :
    totalPages (e :: rest) = entryPages e + totalPages rest := by
  simp [totalPages]

/-- What a completed main loop leaves in the state: pass-1 pagination of the
processed entries, the final cursor, one insertion record per entry, and one
outline record per emitting entry. -/
theorem mergeFold_spec (F : List String → Option Entry)
    (pdf : List String → Option Nat) (img : List String → Bool) (pl : Bool) :
    ∀ (l : List Entry) (st st' : MergeState),
      l.foldlM (mergeStep F pdf img pl) st = some st' →
      st'.done = st.done ++ paginate st.page_index l ∧
      st'.page_index = st.page_index + totalPages l ∧
      st'.inserted = st.inserted ++ l.map (fun e => (e.path, _insert_into_pdf pdf img e)) ∧
      st'.outlines.map (fun o => (o.src, o.title))
        = st.outlines.map (fun o => (o.src, o.title))
          ++ l.filterMap (fun e => if outlineEmits F e
              then some (e.path, outlineTitle pl e) else none)
  | [], st, st', h => by
      have hst : st = st' := by simpa using h
      subst hst
      simp [paginate, totalPages]
  | e :: rest, st, st', h => by
      rw [List.foldlM_cons] at h
      cases hstep : mergeStep F pdf img pl st e with
      | none => rw [hstep] at h; exact absurd h (by simp)
      | some st1 =>
          rw [hstep] at h
          have hrest : rest.foldlM (mergeStep F pdf img pl) st1 = some st' := h
          obtain ⟨h1, h2, h3, h4⟩ := mergeStep_parts F pdf img pl st st1 e hstep
          obtain ⟨g1, g2, g3, g4⟩ := mergeFold_spec F pdf img pl rest st1 st' hrest
          refine ⟨?_, ?_, ?_, ?_⟩
          · rw [g1, h1, h2, List.append_assoc]
            rw [paginate]
            rfl
          · rw [g2, h2, totalPages_cons]
            omega
          · rw [g3, h3, List.append_assoc]
            rfl
          · rw [g4, h4, List.map_append, List.append_assoc]
            congr 1
            rw [List.filterMap_cons]
            by_cases hemit : outlineEmits F e
            · simp [hemit]
            · simp [hemit]

/-- The main loop completes when every image entry's parent folder is in the
`folders` dictionary. -/
theorem mergeFold_total (F : List String → Option Entry)
    (pdf : List String → Option Nat) (img : List String → Bool) (pl : Bool) :
    ∀ (l : List Entry) (st : MergeState),
      (∀ e ∈ l, e.type = .img → (F e.path.dropLast).isSome) →
      ∃ st', l.foldlM (mergeStep F pdf img pl) st = some st'
  | [], st, _ => ⟨st, rfl⟩
  | e :: rest, st, hpar => by
      have hstep : ∃ st1, mergeStep F pdf img pl st e = some st1 := by
        unfold mergeStep
        simp only []
        by_cases himg : e.type = .img
        · rw [if_pos himg]
          cases hf : F e.path.dropLast with
          | none =>
              have := hpar e (List.mem_cons_self _ _) himg
              rw [hf] at this
              exact absurd this (by simp)
          | some f =>
              simp only []
              by_cases honly : f.only_images
              · rw [if_pos honly]; exact ⟨_, rfl⟩
              · rw [if_neg honly]; exact ⟨_, rfl⟩
        · rw [if_neg himg]; exact ⟨_, rfl⟩
      obtain ⟨st1, hstep⟩ := hstep
      obtain ⟨st', hrest⟩ := mergeFold_total F pdf img pl rest st1
        (fun e2 he2 ht => hpar e2 (List.mem_cons_of_mem e he2) ht)
      refine ⟨st', ?_⟩
      rw [List.foldlM_cons, hstep]
      exact hrest

/-- Decomposition of a completed `merge`. -/
theorem merge_spec (pdfPages : List String → Option Nat)
    (imgReadable : List String → Bool) (pretty_labels : Bool)
    (tree : List Entry) (res : MergeResult)
    (h : merge pdfPages imgReadable pretty_labels tree = some res) :
    res.tree = paginate 0
      (_assign_folder_page_indices (_update_files_page_count pdfPages tree).1) ∧
    res.inserted = (_assign_folder_page_indices (_update_files_page_count pdfPages tree).1).map
      (fun e => (e.path, _insert_into_pdf pdfPages imgReadable e)) ∧
    res.outlines.map (fun o => (o.src, o.title))
      = (_assign_folder_page_indices (_update_files_page_count pdfPages tree).1).filterMap
        (fun e => if outlineEmits
            (lookupFolder (_assign_folder_page_indices (_update_files_page_count pdfPages tree).1)) e
          then some (e.path, outlineTitle pretty_labels e) else none) ∧
    res.warnings = (_update_files_page_count pdfPages tree).2 := by
  unfold merge at h
  simp only [] at h
  cases hfold : (_assign_folder_page_indices (_update_files_page_count pdfPages tree).1).foldlM
      (mergeStep (lookupFolder (_assign_folder_page_indices (_update_files_page_count pdfPages tree).1))
        pdfPages imgReadable pretty_labels)
      { page_index := 0, parents := [], outlines := [], inserted := [], done := [] } with
  | none => rw [hfold] at h; exact absurd h (by simp)
  | some st =>
      rw [hfold] at h
      obtain rfl : _ = res := Option.some_inj.mp h
      obtain ⟨g1, g2, g3, g4⟩ := mergeFold_spec _ pdfPages imgReadable pretty_labels
        _ _ st hfold
      simp only [] at g1 g2 g3 g4
      refine ⟨by simpa using g1, by simpa using g3, by simpa using g4, rfl⟩

/-- A completed `merge` exists whenever every image entry has a folder entry
at its parent path (the `KeyError`-freedom condition), stated over the tree
after page counting and the pre-pass. -/
theorem merge_total (pdfPages : List String → Option Nat)
    (imgReadable : List String → Bool) (pretty_labels : Bool)
    (tree : List Entry)
    (hpar : ∀ e ∈ (_assign_folder_page_indices (_update_files_page_count pdfPages tree).1),
      e.type = .img →
      ((lookupFolder (_assign_folder_page_indices (_update_files_page_count pdfPages tree).1))
        e.path.dropLast).isSome) :
    ∃ res, merge pdfPages imgReadable pretty_labels tree = some res := by
  obtain ⟨st', hfold⟩ := mergeFold_total
    (lookupFolder (_assign_folder_page_indices (_update_files_page_count pdfPages tree).1))
    pdfPages imgReadable pretty_labels
    (_assign_folder_page_indices (_update_files_page_count pdfPages tree).1)
    { page_index := 0, parents := [], outlines := [], inserted := [], done := [] } hpar
  refine ⟨{ tree := st'.done, inserted := st'.inserted, outlines := st'.outlines,
            warnings := (_update_files_page_count pdfPages tree).2 }, ?_⟩
  unfold merge
  simp only []
  rw [hfold]

end Mkpdf

namespace Mkpdf

/-! ## Preservation of entry fields along the merge pipeline -/

theorem update_fst_length (pdfPages : List String → Option Nat) (l : List Entry) :
    (_update_files_page_count pdfPages l).1.length = l.length := by
  simp [_update_files_page_count]

theorem update_skel (pdfPages : List String → Option Nat) (l : List Entry) :
    (_update_files_page_count pdfPages l).1.map skel = l.map skel := by
  unfold _update_files_page_count
  rw [List.map_map]
  apply List.map_congr_left
  intro e _
  simp only [Function.comp]
  cases he : e.type
  · simp [he]
  · cases pdfPages e.path <;> simp [skel, he]
  · simp [skel, he]

theorem update_folder_pages (pdfPages : List String → Option Nat) (l : List Entry)
    (i : Nat) (h : i < l.length) (hf : (l.get ⟨i, h⟩).type = .folder) :
    ((_update_files_page_count pdfPages l).1.get
      ⟨i, by rw [update_fst_length]; exact h⟩).pages = (l.get ⟨i, h⟩).pages := by
  unfold _update_files_page_count
  simp only [List.get_eq_getElem, List.getElem_map]
  rw [List.get_eq_getElem] at hf
  rw [hf]

/-- The reverse pre-pass, elementwise: it keeps every field except `page`
(and both length and order). -/
theorem afpi_aux : ∀ (l : List Entry) (last : Nat),
    (l.foldr (fun item st =>
      if item.page.isSome ∧ 0 < item.pages.getD 0 then
        (item.page.getD 0, item :: st.2)
      else if item.type = .folder then
        (st.1, { item with page := some st.1 } :: st.2)
      else
        (st.1, item :: st.2)) ((last : Nat), ([] : List Entry))).2.map skel = l.map skel
    ∧ (l.foldr (fun item st =>
      if item.page.isSome ∧ 0 < item.pages.getD 0 then
        (item.page.getD 0, item :: st.2)
      else if item.type = .folder then
        (st.1, { item with page := some st.1 } :: st.2)
      else
        (st.1, item :: st.2)) ((last : Nat), ([] : List Entry))).2.map Entry.pages
      = l.map Entry.pages
  | [], _ => ⟨rfl, rfl⟩
  | e :: rest, last => by
      obtain ⟨ih1, ih2⟩ := afpi_aux rest last
      rw [List.foldr_cons]
      by_cases h1 : e.page.isSome ∧ 0 < e.pages.getD 0
      · rw [if_pos h1]
        simp only [List.map_cons]
        exact ⟨by rw [ih1] <;> rfl, by rw [ih2] <;> rfl⟩
      · rw [if_neg h1]
        by_cases h2 : e.type = .folder
        · rw [if_pos h2]
          simp only [List.map_cons]
          exact ⟨by rw [ih1] <;> rfl, by rw [ih2] <;> rfl⟩
        · rw [if_neg h2]
          simp only [List.map_cons]
          exact ⟨by rw [ih1] <;> rfl, by rw [ih2] <;> rfl⟩

theorem afpi_skel (l : List Entry) :
    (_assign_folder_page_indices l).map skel = l.map skel :=
  (afpi_aux l 0).1

theorem afpi_pages (l : List Entry) :
    (_assign_folder_page_indices l).map Entry.pages = l.map Entry.pages :=
  (afpi_aux l 0).2

theorem afpi_length (l : List Entry) :
    (_assign_folder_page_indices l).length = l.length := by
  have := afpi_pages l
  have h2 := congrArg List.length this
  simpa using h2

theorem paginate_skel (c : Nat) : ∀ (l : List Entry),
    (paginate c l).map skel = l.map skel
  | [] => rfl
  | e :: rest => by
      simp only [paginate, List.map_cons, paginate_skel _ rest]
      rfl

theorem paginate_pages (c : Nat) : ∀ (l : List Entry),
    (paginate c l).map Entry.pages = l.map Entry.pages
  | [] => rfl
  | e :: rest => by
      simp only [paginate, List.map_cons, paginate_pages _ rest]

theorem paginate_take (c : Nat) : ∀ (l : List Entry) (i : Nat),
    (paginate c l).take i = paginate c (l.take i)
  | [], i => by simp [paginate]
  | e :: rest, 0 => by simp [paginate]
  | e :: rest, i + 1 => by
      simp only [paginate, List.take_succ_cons]
      rw [paginate_take _ rest i]

theorem paginate_drop (c : Nat) : ∀ (l : List Entry) (i : Nat),
    (paginate c l).drop i = paginate (c + totalPages (l.take i)) (l.drop i)
  | [], i => by simp [paginate, totalPages]
  | e :: rest, 0 => by simp [totalPages]
  | e :: rest, i + 1 => by
      simp only [paginate, List.drop_succ_cons, List.take_succ_cons, totalPages_cons]
      rw [paginate_drop _ rest i]
      congr 1
      omega

theorem totalPages_of_map_pages_eq {l l' : List Entry}
    (h : l.map Entry.pages = l'.map Entry.pages) : totalPages l = totalPages l' := by
  unfold totalPages
  have h2 : l.map entryPages = l'.map entryPages := by
    have h3 : (l.map Entry.pages).map (fun p => p.getD 0)
        = (l'.map Entry.pages).map (fun p => p.getD 0) := by rw [h]
    rw [List.map_map, List.map_map] at h3
    exact h3
  rw [h2]

/-- Pass-1 pagination, elementwise. -/
theorem paginate_get : ∀ (l : List Entry) (c : Nat) (i : Nat) (h : i < l.length),
    (paginate c l).get ⟨i, by rw [paginate_length]; exact h⟩
      = { l.get ⟨i, h⟩ with page := some (c + totalPages (l.take i)) }
  | [], _, i, h => absurd h (by simp)
  | e :: rest, c, 0, h => by simp [paginate, totalPages]
  | e :: rest, c, i + 1, h => by
      have hlt : i < rest.length := by simpa using h
      have hrec := paginate_get rest (c + entryPages e) i hlt
      simp only [paginate, List.get_cons_succ, List.take_succ_cons, totalPages_cons]
      rw [hrec]
      have harith : c + entryPages e + totalPages (List.take i rest)
          = c + (entryPages e + totalPages (List.take i rest)) := by omega
      rw [harith]

/-- Equal images under a map give equal projections of corresponding
elements. -/
theorem map_eq_get {γ : Type _} {f : Entry → γ} : ∀ {l l' : List Entry},
    l.map f = l'.map f → ∀ (i : Nat) (h : i < l.length) (h' : i < l'.length),
    f (l.get ⟨i, h⟩) = f (l'.get ⟨i, h'⟩)
  | [], [], _, i, h, _ => absurd h (by simp)
  | [], _ :: _, hmap, _, _, _ => by simp at hmap
  | _ :: _, [], hmap, _, _, _ => by simp at hmap
  | a :: t, b :: u, hmap, 0, _, _ => by
      simp only [List.map_cons, List.cons.injEq] at hmap
      simpa using hmap.1
  | a :: t, b :: u, hmap, i + 1, h, h' => by
      simp only [List.map_cons, List.cons.injEq] at hmap
      simpa using map_eq_get hmap.2 i (by simpa using h) (by simpa using h')

end Mkpdf

namespace Mkpdf

/-- After a completed merge, every entry's `page` is the running cursor: the
sum of the page counts of all entries before it in emission order. -/
theorem merge_page_eq (pdfPages : List String → Option Nat)
    (imgReadable : List String → Bool) (pretty_labels : Bool)
    (tree : List Entry) (res : MergeResult)
    (h : merge pdfPages imgReadable pretty_labels tree = some res)
    (i : Nat) (hi : i < res.tree.length) :
    (res.tree.get ⟨i, hi⟩).page = some (totalPages (res.tree.take i)) := by
  obtain ⟨g1, _, _, _⟩ := merge_spec pdfPages imgReadable pretty_labels tree res h
  have hTlen : i < (paginate 0
      (_assign_folder_page_indices (_update_files_page_count pdfPages tree).1)).length := by
    rw [← g1]; exact hi
  have hT2len : i < (_assign_folder_page_indices
      (_update_files_page_count pdfPages tree).1).length := by
    rw [← paginate_length 0]; exact hTlen
  have hget : res.tree.get ⟨i, hi⟩ = (paginate 0
      (_assign_folder_page_indices (_update_files_page_count pdfPages tree).1)).get
      ⟨i, hTlen⟩ := List.get_of_eq g1 _
  rw [hget, paginate_get _ 0 i hT2len]
  have htp : totalPages (res.tree.take i)
      = totalPages ((_assign_folder_page_indices
          (_update_files_page_count pdfPages tree).1).take i) := by
    rw [g1, paginate_take]
    exact totalPages_of_map_pages_eq (paginate_pages _ _)
  rw [htp]
  simp

/-- C6: pass-1 pagination: traversing the entry sequence once in emission
order with a running cursor initialized to 0, each entry's `startPage` is the
cursor value at that entry, and the cursor advances by the entry's page count
(`pages.getD 0`, which is 0 for folders, whose `pages` key is never set). -/
theorem c6_pass1_pagination (pdfPages : List String → Option Nat)
    (imgReadable : List String → Bool) (pretty_labels : Bool)
    (tree : List Entry) (res : MergeResult)
    (h : merge pdfPages imgReadable pretty_labels tree = some res)
    (i : Nat) (hi : i < res.tree.length) :
    (res.tree.get ⟨i, hi⟩).page = some (totalPages (res.tree.take i)) :=
  merge_page_eq pdfPages imgReadable pretty_labels tree res h i hi

/-- Witness for C6 at a concrete input: pageCount sequence
`[folder = 0, pdf = 3, folder = 0, img = 1]` yields startPage sequence
`[0, 0, 3, 3]`. -/
theorem c6_pass1_pagination_witness :
    merge (fun p => if p = ["A", "x.pdf"] then some 3 else none) (fun _ => true) false
      [{ path := ["A"], type := .folder, title := "A" },
       { path := ["A", "x.pdf"], type := .pdf },
       { path := ["A", "B"], type := .folder, title := "B", only_images := true },
       { path := ["A", "B", "y.jpg"], type := .img }]
      = some { tree := [{ path := ["A"], type := .folder, title := "A", page := some 0 },
                        { path := ["A", "x.pdf"], type := .pdf, pages := some 3, page := some 0 },
                        { path := ["A", "B"], type := .folder, title := "B",
                          only_images := true, page := some 3 },
                        { path := ["A", "B", "y.jpg"], type := .img, pages := some 1,
                          page := some 3 }],
               inserted := [(["A"], 0), (["A", "x.pdf"], 3), (["A", "B"], 0),
                            (["A", "B", "y.jpg"], 1)],
               outlines := [{ title := "A", page_number := 0, parent := none, src := ["A"] },
                            { title := "x", page_number := 0, parent := some ["A"],
                              src := ["A", "x.pdf"] },
                            { title := "B", page_number := 3, parent := some ["A"],
                              src := ["A", "B"] }],
               warnings := [] }
    ∧ ([{ path := ["A"], type := .folder, title := "A", page := some 0 },
        { path := ["A", "x.pdf"], type := .pdf, pages := some 3, page := some 0 },
        { path := ["A", "B"], type := .folder, title := "B", only_images := true,
          page := some 3 },
        { path := ["A", "B", "y.jpg"], type := .img, pages := some 1, page := some 3 }]
        : List Entry).map Entry.page = [some 0, some 0, some 3, some 3]
    ∧ (([{ path := ["A"], type := .folder, title := "A", page := some 0 },
        { path := ["A", "x.pdf"], type := .pdf, pages := some 3, page := some 0 },
        { path := ["A", "B"], type := .folder, title := "B", only_images := true,
          page := some 3 },
        { path := ["A", "B", "y.jpg"], type := .img, pages := some 1, page := some 3 }]
        : List Entry).get ⟨3, by decide⟩).page
      = some (totalPages (([{ path := ["A"], type := .folder, title := "A", page := some 0 },
        { path := ["A", "x.pdf"], type := .pdf, pages := some 3, page := some 0 },
        { path := ["A", "B"], type := .folder, title := "B", only_images := true,
          page := some 3 },
        { path := ["A", "B", "y.jpg"], type := .img, pages := some 1, page := some 3 }]
        : List Entry).take 3)) := by
  refine ⟨by decide, by decide, ?_⟩
  exact c6_pass1_pagination (fun p => if p = ["A", "x.pdf"] then some 3 else none)
    (fun _ => true) false
    [{ path := ["A"], type := .folder, title := "A" },
     { path := ["A", "x.pdf"], type := .pdf },
     { path := ["A", "B"], type := .folder, title := "B", only_images := true },
     { path := ["A", "B", "y.jpg"], type := .img }]
    { tree := [{ path := ["A"], type := .folder, title := "A", page := some 0 },
                        { path := ["A", "x.pdf"], type := .pdf, pages := some 3, page := some 0 },
                        { path := ["A", "B"], type := .folder, title := "B",
                          only_images := true, page := some 3 },
                        { path := ["A", "B", "y.jpg"], type := .img, pages := some 1,
                          page := some 3 }],
               inserted := [(["A"], 0), (["A", "x.pdf"], 3), (["A", "B"], 0),
                            (["A", "B", "y.jpg"], 1)],
               outlines := [{ title := "A", page_number := 0, parent := none, src := ["A"] },
                            { title := "x", page_number := 0, parent := some ["A"],
                              src := ["A", "x.pdf"] },
                            { title := "B", page_number := 3, parent := some ["A"],
                              src := ["A", "B"] }],
               warnings := [] } (by decide) 3 (by decide)

end Mkpdf

namespace Mkpdf

/-! ## C3: folder page indices equal the backward-fill specification -/

theorem totalPages_append (a b : List Entry) :
    totalPages (a ++ b) = totalPages a + totalPages b := by
  simp [totalPages]

theorem totalPages_take_drop (l : List Entry) (n : Nat) :
    totalPages l = totalPages (l.take n) + totalPages (l.drop n) := by
  conv_lhs => rw [← List.take_append_drop n l]
  exact totalPages_append _ _

theorem totalPages_take_succ (l : List Entry) (i : Nat) (h : i < l.length) :
    totalPages (l.take (i + 1)) = totalPages (l.take i) + entryPages (l.get ⟨i, h⟩) := by
  rw [List.take_succ, totalPages_append]
  have hgets : l[i]? = some (l.get ⟨i, h⟩) := by
    rw [List.getElem?_eq_some_iff]
    exact ⟨h, rfl⟩
  rw [hgets]
  simp [totalPages]

/-- Scanning a paginated segment for the first entry with positive page
count: it carries the segment's starting cursor as its page; if none exists
the whole segment contributes zero pages. -/
theorem find_pos_paginate : ∀ (m : List Entry) (c : Nat),
    (∀ e, (paginate c m).find? (fun e => decide (0 < entryPages e)) = some e →
      e.page = some c)
    ∧ ((paginate c m).find? (fun e => decide (0 < entryPages e)) = none →
      totalPages m = 0)
  | [], c => ⟨fun e h => absurd h (by simp [paginate]), fun _ => rfl⟩
  | x :: rest, c => by
      constructor
      · intro e h
        rw [paginate.eq_def] at h
        simp only [List.find?_cons] at h
        by_cases hp : 0 < entryPages x
        · have hd : decide (0 < entryPages { x with page := some c }) = true := by
            simpa [entryPages] using hp
          rw [hd] at h
          have h2 : some ({ x with page := some c } : Entry) = some e := h
          obtain rfl : _ = e := Option.some_inj.mp h2
          rfl
        · have hd : decide (0 < entryPages { x with page := some c }) = false := by
            simpa [entryPages] using hp
          rw [hd] at h
          have h2 : (paginate (c + entryPages x) rest).find?
              (fun e => decide (0 < entryPages e)) = some e := h
          have hz : entryPages x = 0 := by omega
          rw [hz] at h2
          exact (find_pos_paginate rest c).1 e h2
      · intro h
        rw [paginate.eq_def] at h
        simp only [List.find?_cons] at h
        by_cases hp : 0 < entryPages x
        · have hd : decide (0 < entryPages { x with page := some c }) = true := by
            simpa [entryPages] using hp
          rw [hd] at h
          have h2 : some ({ x with page := some c } : Entry) = none := h
          exact absurd h2 (by simp)
        · have hd : decide (0 < entryPages { x with page := some c }) = false := by
            simpa [entryPages] using hp
          rw [hd] at h
          have h2 : (paginate (c + entryPages x) rest).find?
              (fun e => decide (0 < entryPages e)) = none := h
          have hz : entryPages x = 0 := by omega
          rw [hz] at h2
          have h3 := (find_pos_paginate rest c).2 h2
          rw [totalPages_cons, hz, h3]

theorem skel_proj_type {l l' : List Entry} (h : l.map skel = l'.map skel) :
    l.map Entry.type = l'.map Entry.type := by
  have h2 := congrArg
    (List.map (fun s : List String × EKind × Bool × Option String => s.2.1)) h
  rw [List.map_map, List.map_map] at h2
  exact h2

theorem skel_proj_path {l l' : List Entry} (h : l.map skel = l'.map skel) :
    l.map Entry.path = l'.map Entry.path := by
  have h2 := congrArg
    (List.map (fun s : List String × EKind × Bool × Option String => s.1)) h
  rw [List.map_map, List.map_map] at h2
  exact h2

/-- The skeleton of the merged tree equals that of the input tree. -/
theorem merge_tree_skel (pdfPages : List String → Option Nat)
    (imgReadable : List String → Bool) (pretty_labels : Bool)
    (tree : List Entry) (res : MergeResult)
    (h : merge pdfPages imgReadable pretty_labels tree = some res) :
    res.tree.map skel = tree.map skel := by
  obtain ⟨g1, _, _, _⟩ := merge_spec pdfPages imgReadable pretty_labels tree res h
  rw [g1, paginate_skel, afpi_skel, update_skel]

theorem merge_tree_length (pdfPages : List String → Option Nat)
    (imgReadable : List String → Bool) (pretty_labels : Bool)
    (tree : List Entry) (res : MergeResult)
    (h : merge pdfPages imgReadable pretty_labels tree = some res) :
    res.tree.length = tree.length := by
  have h2 := congrArg List.length (merge_tree_skel pdfPages imgReadable pretty_labels tree res h)
  simpa using h2

/-- C3: after assembly completes, every folder entry's `startPage` equals the
`startPage` of the nearest later entry with a positive page count, or the
final cursor value (the total page count) when no such entry exists — in
particular this holds for every folder whose entire subtree contributes zero
pages, and a trailing zero-page folder receives the total page count. -/
theorem c3_folder_backfill (pdfPages : List String → Option Nat)
    (imgReadable : List String → Bool) (pretty_labels : Bool)
    (tree : List Entry) (res : MergeResult)
    (h : merge pdfPages imgReadable pretty_labels tree = some res)
    (hfolders : ∀ e ∈ tree, e.type = .folder → e.pages = none)
    (i : Nat) (hi : i < res.tree.length)
    (hf : (res.tree.get ⟨i, hi⟩).type = .folder) :
    (res.tree.get ⟨i, hi⟩).page = some (backfillTarget res.tree i) := by
  obtain ⟨g1, _, _, _⟩ := merge_spec pdfPages imgReadable pretty_labels tree res h
  have hT2len : i < (_assign_folder_page_indices
      (_update_files_page_count pdfPages tree).1).length := by
    have := merge_tree_length pdfPages imgReadable pretty_labels tree res h
    rw [afpi_length, update_fst_length, ← this]
    exact hi
  have hlen0 : i < tree.length := by
    rw [← update_fst_length pdfPages tree, ← afpi_length]
    exact hT2len
  -- the folder's own page count is zero
  have htype0 : (tree.get ⟨i, hlen0⟩).type = .folder := by
    have hsk := merge_tree_skel pdfPages imgReadable pretty_labels tree res h
    have := map_eq_get (f := Entry.type) (skel_proj_type hsk) i hi hlen0
    rw [← this]
    exact hf
  have hpages0 : (tree.get ⟨i, hlen0⟩).pages = none :=
    hfolders _ (List.get_mem tree _ _) htype0
  have hpages2 : ((_assign_folder_page_indices
      (_update_files_page_count pdfPages tree).1).get ⟨i, hT2len⟩).pages = none := by
    have h1 := map_eq_get (f := Entry.pages) (afpi_pages (_update_files_page_count pdfPages tree).1)
      i hT2len (by rw [update_fst_length]; exact hlen0)
    rw [h1, update_folder_pages pdfPages tree i hlen0 htype0, hpages0]
  have hep2 : entryPages ((_assign_folder_page_indices
      (_update_files_page_count pdfPages tree).1).get ⟨i, hT2len⟩) = 0 := by
    unfold entryPages
    rw [hpages2]
    rfl
  -- page of the folder = C, the cursor before it
  have hpage := merge_page_eq pdfPages imgReadable pretty_labels tree res h i hi
  -- compute the backfill target
  have htake : totalPages (res.tree.take i)
      = totalPages ((_assign_folder_page_indices
          (_update_files_page_count pdfPages tree).1).take i) := by
    rw [g1, paginate_take]
    exact totalPages_of_map_pages_eq (paginate_pages _ _)
  have hdrop : res.tree.drop (i + 1)
      = paginate (0 + totalPages ((_assign_folder_page_indices
          (_update_files_page_count pdfPages tree).1).take (i + 1)))
        ((_assign_folder_page_indices
          (_update_files_page_count pdfPages tree).1).drop (i + 1)) := by
    rw [g1, paginate_drop]
  have hcursor : 0 + totalPages ((_assign_folder_page_indices
      (_update_files_page_count pdfPages tree).1).take (i + 1))
      = totalPages ((_assign_folder_page_indices
          (_update_files_page_count pdfPages tree).1).take i) := by
    rw [totalPages_take_succ _ i hT2len, hep2]
    omega
  rw [hpage, htake]
  cases hfind : (res.tree.drop (i + 1)).find? (fun e => decide (0 < entryPages e)) with
  | some e =>
      have hbt : backfillTarget res.tree i = e.page.getD 0 := by
        unfold backfillTarget
        rw [hfind]
      have hfind0 := hfind
      rw [hdrop, hcursor] at hfind0
      have hec := (find_pos_paginate _ _).1 e hfind0
      rw [hbt, hec]
      simp
  | none =>
      have hbt : backfillTarget res.tree i = totalPages res.tree := by
        unfold backfillTarget
        rw [hfind]
      have hfind0 := hfind
      rw [hdrop, hcursor] at hfind0
      have hzero := (find_pos_paginate _ _).2 hfind0
      have htot : totalPages res.tree
          = totalPages ((_assign_folder_page_indices
              (_update_files_page_count pdfPages tree).1)) := by
        rw [g1]
        exact totalPages_of_map_pages_eq (paginate_pages _ _)
      have hfin : totalPages (_assign_folder_page_indices
            (_update_files_page_count pdfPages tree).1)
          = totalPages ((_assign_folder_page_indices
              (_update_files_page_count pdfPages tree).1).take i) := by
        conv_lhs => rw [totalPages_take_drop (_assign_folder_page_indices
          (_update_files_page_count pdfPages tree).1) (i + 1)]
        rw [hzero, totalPages_take_succ _ i hT2len, hep2]
        omega
      rw [hbt, htot, hfin]

/-- Witness for C3 at a concrete input: a trailing empty folder receives the
final cumulative page count. -/
theorem c3_folder_backfill_witness :
    merge (fun p => if p = ["A", "x.pdf"] then some 2 else none) (fun _ => true) false
      [{ path := ["A"], type := .folder, title := "A" },
       { path := ["A", "x.pdf"], type := .pdf },
       { path := ["A", "B"], type := .folder, title := "B" }]
      = some { tree := [{ path := ["A"], type := .folder, title := "A", page := some 0 },
                        { path := ["A", "x.pdf"], type := .pdf, pages := some 2, page := some 0 },
                        { path := ["A", "B"], type := .folder, title := "B", page := some 2 }],
               inserted := [(["A"], 0), (["A", "x.pdf"], 2), (["A", "B"], 0)],
               outlines := [{ title := "A", page_number := 0, parent := none, src := ["A"] },
                            { title := "x", page_number := 0, parent := some ["A"],
                              src := ["A", "x.pdf"] },
                            { title := "B", page_number := 2, parent := some ["A"],
                              src := ["A", "B"] }],
               warnings := [] }
    ∧ (∀ e ∈ ([{ path := ["A"], type := .folder, title := "A" },
        { path := ["A", "x.pdf"], type := .pdf },
        { path := ["A", "B"], type := .folder, title := "B" }] : List Entry),
        e.type = .folder → e.pages = none)
    ∧ (([{ path := ["A"], type := .folder, title := "A", page := some 0 },
        { path := ["A", "x.pdf"], type := .pdf, pages := some 2, page := some 0 },
        { path := ["A", "B"], type := .folder, title := "B", page := some 2 }]
        : List Entry).get ⟨2, by decide⟩).page
      = some (backfillTarget
          ([{ path := ["A"], type := .folder, title := "A", page := some 0 },
            { path := ["A", "x.pdf"], type := .pdf, pages := some 2, page := some 0 },
            { path := ["A", "B"], type := .folder, title := "B", page := some 2 }]
            : List Entry) 2) := by
  refine ⟨by decide, by decide, ?_⟩
  exact c3_folder_backfill (fun p => if p = ["A", "x.pdf"] then some 2 else none)
    (fun _ => true) false
    [{ path := ["A"], type := .folder, title := "A" },
     { path := ["A", "x.pdf"], type := .pdf },
     { path := ["A", "B"], type := .folder, title := "B" }]
    { tree := [{ path := ["A"], type := .folder, title := "A", page := some 0 },
               { path := ["A", "x.pdf"], type := .pdf, pages := some 2, page := some 0 },
               { path := ["A", "B"], type := .folder, title := "B", page := some 2 }],
      inserted := [(["A"], 0), (["A", "x.pdf"], 2), (["A", "B"], 0)],
      outlines := [{ title := "A", page_number := 0, parent := none, src := ["A"] },
                   { title := "x", page_number := 0, parent := some ["A"],
                     src := ["A", "x.pdf"] },
                   { title := "B", page_number := 2, parent := some ["A"],
                     src := ["A", "B"] }],
      warnings := [] }
    (by decide) (by decide) 2 (by decide) (by decide)

end Mkpdf

namespace Mkpdf

/-! ## C4: unreadable content handling -/

theorem skel_proj_pt {l l' : List Entry} (h : l.map skel = l'.map skel) :
    l.map (fun e => (e.path, e.type)) = l'.map (fun e => (e.path, e.type)) := by
  have h2 := congrArg
    (List.map (fun s : List String × EKind × Bool × Option String => (s.1, s.2.1))) h
  rw [List.map_map, List.map_map] at h2
  exact h2

/-- Existence in the `folders` dictionary. -/
theorem lookupFolder_isSome {l : List Entry} {p : List String}
    (h : ∃ f ∈ l, f.type = .folder ∧ f.path = p) :
    (lookupFolder l p).isSome := by
  unfold lookupFolder
  rw [List.find?_isSome]
  rcases h with ⟨f, hf, ht, hp⟩
  exact ⟨f, by simp [List.mem_reverse, List.mem_filter, hf, ht], by simp [hp]⟩

/-- What `lookupFolder` returns is a folder entry of the list at the looked-up
path. -/
theorem lookupFolder_spec {l : List Entry} {p : List String} {f : Entry}
    (h : lookupFolder l p = some f) :
    f ∈ l ∧ f.type = .folder ∧ f.path = p := by
  unfold lookupFolder at h
  have hmem := List.mem_of_find?_eq_some h
  have hpred := List.find?_some h
  rw [List.mem_reverse, List.mem_filter] at hmem
  exact ⟨hmem.1, by simpa using hmem.2, by simpa using hpred⟩

/-- The skeleton of the tree after page counting and the pre-pass. -/
theorem tree2_skel (pdfPages : List String → Option Nat) (tree : List Entry) :
    (_assign_folder_page_indices (_update_files_page_count pdfPages tree).1).map skel
      = tree.map skel := by
  rw [afpi_skel, update_skel]

/-- The `pages` key an unreadable pdf receives from the counting pass. -/
theorem update_pdf_unreadable (pdfPages : List String → Option Nat) (tree : List Entry)
    (i : Nat) (h : i < tree.length) (ht : (tree.get ⟨i, h⟩).type = .pdf)
    (hn : pdfPages (tree.get ⟨i, h⟩).path = none) :
    ((_update_files_page_count pdfPages tree).1.get
      ⟨i, by rw [update_fst_length]; exact h⟩).pages = some 0 := by
  unfold _update_files_page_count
  simp only [List.get_eq_getElem, List.getElem_map]
  rw [List.get_eq_getElem] at ht hn
  rw [ht, hn]

/-- The warning the counting pass records for an unreadable pdf. -/
theorem update_warn_mem (pdfPages : List String → Option Nat) (tree : List Entry)
    (i : Nat) (h : i < tree.length) (ht : (tree.get ⟨i, h⟩).type = .pdf)
    (hn : pdfPages (tree.get ⟨i, h⟩).path = none) :
    (tree.get ⟨i, h⟩).path ∈ (_update_files_page_count pdfPages tree).2 := by
  unfold _update_files_page_count
  simp only []
  apply List.mem_filterMap.mpr
  refine ⟨tree.get ⟨i, h⟩, List.get_mem _ _ _, ?_⟩
  rw [ht, hn]

/-- C4, amended: a pdf entry whose reader raises is recorded with a zero page
count, warned about, and excluded from outline generation, and the merge
still runs to completion.  (An unreadable *image*, by contrast, keeps page
count 1 and still receives an outline node — see the counterexample.)
Completion needs every image entry to have a folder entry at its parent path,
the loop's `KeyError`-freedom condition; duplicate-free paths identify
entries with their outline nodes. -/
theorem c4_unreadable_pdf_amended (pdfPages : List String → Option Nat)
    (imgReadable : List String → Bool) (pretty_labels : Bool) (tree : List Entry)
    (hpar : ∀ e ∈ tree, e.type = .img →
      ∃ f ∈ tree, f.type = .folder ∧ f.path = e.path.dropLast)
    (hnd : (tree.map Entry.path).Nodup) :
    ∃ res, merge pdfPages imgReadable pretty_labels tree = some res ∧
      ∀ (i : Nat) (hi : i < tree.length) (hresi : i < res.tree.length),
        (tree.get ⟨i, hi⟩).type = .pdf →
        pdfPages (tree.get ⟨i, hi⟩).path = none →
        (res.tree.get ⟨i, hresi⟩).pages = some 0 ∧
        (tree.get ⟨i, hi⟩).path ∈ res.warnings ∧
        (∀ o ∈ res.outlines, o.src ≠ (tree.get ⟨i, hi⟩).path) := by
  have hskT2 := tree2_skel pdfPages tree
  have hlenT2 : (_assign_folder_page_indices
      (_update_files_page_count pdfPages tree).1).length = tree.length := by
    rw [afpi_length, update_fst_length]
  obtain ⟨res, hres⟩ := merge_total pdfPages imgReadable pretty_labels tree (by
    intro e he htimg
    apply lookupFolder_isSome
    have hmem : (e.path, e.type) ∈ (_assign_folder_page_indices
        (_update_files_page_count pdfPages tree).1).map (fun e => (e.path, e.type)) :=
      List.mem_map_of_mem _ he
    rw [skel_proj_pt hskT2] at hmem
    rcases List.mem_map.mp hmem with ⟨e0, he0, heq⟩
    have hp0 : e0.path = e.path := congrArg Prod.fst heq
    have ht0 : e0.type = e.type := congrArg Prod.snd heq
    rcases hpar e0 he0 (by rw [ht0, htimg]) with ⟨f, hf, hft, hfp⟩
    have hmemf : (f.path, f.type) ∈ tree.map (fun e => (e.path, e.type)) :=
      List.mem_map_of_mem _ hf
    rw [← skel_proj_pt hskT2] at hmemf
    rcases List.mem_map.mp hmemf with ⟨f', hf', heqf⟩
    have hpf : f'.path = f.path := congrArg Prod.fst heqf
    have htf : f'.type = f.type := congrArg Prod.snd heqf
    exact ⟨f', hf', by rw [htf, hft], by rw [hpf, hfp, hp0]⟩)
  refine ⟨res, hres, ?_⟩
  intro i hi hresi htpdf hnone
  obtain ⟨g1, g2, g3, g4⟩ := merge_spec pdfPages imgReadable pretty_labels tree res hres
  have hT1len : i < (_update_files_page_count pdfPages tree).1.length := by
    rw [update_fst_length]
    exact hi
  have hT2leni : i < (_assign_folder_page_indices
      (_update_files_page_count pdfPages tree).1).length := by
    rw [hlenT2]
    exact hi
  have hpmap : res.tree.map Entry.pages
      = (_update_files_page_count pdfPages tree).1.map Entry.pages := by
    rw [g1, paginate_pages, afpi_pages]
  have hpages : (res.tree.get ⟨i, hresi⟩).pages = some 0 := by
    rw [map_eq_get (f := Entry.pages) hpmap i hresi hT1len]
    exact update_pdf_unreadable pdfPages tree i hi htpdf hnone
  refine ⟨hpages, ?_, ?_⟩
  · rw [g4]
    exact update_warn_mem pdfPages tree i hi htpdf hnone
  · intro o ho hcon
    have hmem : (o.src, o.title) ∈ res.outlines.map (fun o => (o.src, o.title)) :=
      List.mem_map_of_mem _ ho
    rw [g3] at hmem
    rcases List.mem_filterMap.mp hmem with ⟨e', he', hfe⟩
    by_cases hem : outlineEmits (lookupFolder (_assign_folder_page_indices
        (_update_files_page_count pdfPages tree).1)) e'
    case neg => rw [if_neg hem] at hfe; exact absurd hfe (by simp)
    case pos =>
    rw [if_pos hem] at hfe
    have hpath' : e'.path = o.src := congrArg Prod.fst (Option.some_inj.mp hfe)
    have hndT2 : ((_assign_folder_page_indices
        (_update_files_page_count pdfPages tree).1).map Entry.path).Nodup := by
      rw [skel_proj_path hskT2]
      exact hnd
    have hT2ipath : ((_assign_folder_page_indices
        (_update_files_page_count pdfPages tree).1).get ⟨i, hT2leni⟩).path
        = (tree.get ⟨i, hi⟩).path :=
      map_eq_get (f := Entry.path) (skel_proj_path hskT2) i hT2leni hi
    have hee : e' = (_assign_folder_page_indices
        (_update_files_page_count pdfPages tree).1).get ⟨i, hT2leni⟩ := by
      apply List.inj_on_of_nodup_map hndT2 he' (List.get_mem _ _ _)
      rw [hpath', hT2ipath, hcon]
    have hT2itype : ((_assign_folder_page_indices
        (_update_files_page_count pdfPages tree).1).get ⟨i, hT2leni⟩).type
        = (tree.get ⟨i, hi⟩).type :=
      map_eq_get (f := Entry.type) (skel_proj_type hskT2) i hT2leni hi
    have hT2ipages : ((_assign_folder_page_indices
        (_update_files_page_count pdfPages tree).1).get ⟨i, hT2leni⟩).pages
        = some 0 := by
      rw [map_eq_get (f := Entry.pages)
        (afpi_pages (_update_files_page_count pdfPages tree).1) i hT2leni hT1len]
      exact update_pdf_unreadable pdfPages tree i hi htpdf hnone
    rw [hee] at hem
    rw [outlineEmits] at hem
    rw [if_neg (by rw [hT2itype, htpdf]; simp)] at hem
    rw [if_pos ⟨by rw [hT2itype, htpdf]; simp, by rw [hT2ipages]; rfl⟩] at hem
    exact absurd hem (by simp)

/-- C4, counterexample: an image that cannot be opened is *not* recorded as a
zero-page entry and is *not* excluded from outline generation — the counting
pass unconditionally gives images page count 1 (the `try` around
`item["pages"] = 1` cannot raise), the conversion failure surfaces only at
insertion time (0 pages actually inserted), and the outline still gets a node
for the image. -/
theorem c4_unreadable_image_counterexample :
    merge (fun _ => none) (fun _ => false) false
      [{ path := ["A"], type := .folder, title := "A" },
       { path := ["A", "y.jpg"], type := .img }]
    = some { tree := [{ path := ["A"], type := .folder, title := "A", page := some 0 },
                      { path := ["A", "y.jpg"], type := .img, pages := some 1, page := some 0 }],
             inserted := [(["A"], 0), (["A", "y.jpg"], 0)],
             outlines := [{ title := "A", page_number := 0, parent := none, src := ["A"] },
                          { title := "y", page_number := 0, parent := some ["A"],
                            src := ["A", "y.jpg"] }],
             warnings := [] }
    ∧ ¬ (([{ path := ["A"], type := .folder, title := "A", page := some 0 },
           { path := ["A", "y.jpg"], type := .img, pages := some 1, page := some 0 }]
           : List Entry).get ⟨1, by decide⟩).pages = some 0
    ∧ ¬ (∀ o ∈ ([{ title := "A", page_number := 0, parent := none, src := ["A"] },
                 { title := "y", page_number := 0, parent := some ["A"],
                   src := ["A", "y.jpg"] }] : List OutlineNode),
          o.src ≠ (["A", "y.jpg"] : List String)) := by
  refine ⟨by decide, by decide, by decide⟩

/-- Witness for the amended C4 at a concrete input: one folder and one
unreadable pdf. -/
theorem c4_unreadable_pdf_amended_witness :
    (∀ e ∈ ([{ path := ["A"], type := .folder, title := "A" },
             { path := ["A", "x.pdf"], type := .pdf }] : List Entry), e.type = .img →
      ∃ f ∈ ([{ path := ["A"], type := .folder, title := "A" },
              { path := ["A", "x.pdf"], type := .pdf }] : List Entry),
        f.type = .folder ∧ f.path = e.path.dropLast)
    ∧ (([{ path := ["A"], type := .folder, title := "A" },
         { path := ["A", "x.pdf"], type := .pdf }] : List Entry).map Entry.path).Nodup
    ∧ ∃ res, merge (fun _ => none) (fun _ => true) false
        [{ path := ["A"], type := .folder, title := "A" },
         { path := ["A", "x.pdf"], type := .pdf }] = some res ∧
      ∀ (i : Nat) (hi : i < ([{ path := ["A"], type := .folder, title := "A" },
          { path := ["A", "x.pdf"], type := .pdf }] : List Entry).length)
        (hresi : i < res.tree.length),
        (([{ path := ["A"], type := .folder, title := "A" },
            { path := ["A", "x.pdf"], type := .pdf }] : List Entry).get ⟨i, hi⟩).type = .pdf →
        (fun _ => (none : Option Nat)) (([{ path := ["A"], type := .folder, title := "A" },
            { path := ["A", "x.pdf"], type := .pdf }] : List Entry).get ⟨i, hi⟩).path = none →
        (res.tree.get ⟨i, hresi⟩).pages = some 0 ∧
        (([{ path := ["A"], type := .folder, title := "A" },
            { path := ["A", "x.pdf"], type := .pdf }] : List Entry).get ⟨i, hi⟩).path
          ∈ res.warnings ∧
        (∀ o ∈ res.outlines, o.src ≠ (([{ path := ["A"], type := .folder, title := "A" },
            { path := ["A", "x.pdf"], type := .pdf }] : List Entry).get ⟨i, hi⟩).path) :=
  ⟨by decide, by decide,
   c4_unreadable_pdf_amended (fun _ => none) (fun _ => true) false
     [{ path := ["A"], type := .folder, title := "A" },
      { path := ["A", "x.pdf"], type := .pdf }]
     (by decide) (by decide)⟩

end Mkpdf

namespace Mkpdf

/-! ## C7: only-images suppression -/

theorem skel_proj_oi {l l' : List Entry} (h : l.map skel = l'.map skel) :
    l.map Entry.only_images = l'.map Entry.only_images := by
  have h2 := congrArg
    (List.map (fun s : List String × EKind × Bool × Option String => s.2.2.1)) h
  rw [List.map_map, List.map_map] at h2
  exact h2

/-- Filtering the emitted outline records by source path commutes with
restricting the tree to that path first. -/
theorem filterMap_emit_filter_fst (F : List String → Option Entry) (pl : Bool)
    (p : List String) : ∀ (l : List Entry),
    (l.filterMap (fun e => if outlineEmits F e
        then some (e.path, outlineTitle pl e) else none)).filter
      (fun q => q.1 = p)
    = (l.filter (fun e => e.path = p)).filterMap (fun e => if outlineEmits F e
        then some (e.path, outlineTitle pl e) else none)
  | [] => rfl
  | e :: rest => by
      rw [List.filterMap_cons, List.filter_cons]
      by_cases hem : outlineEmits F e
      · rw [if_pos hem, List.filter_cons]
        by_cases hp : e.path = p
        · rw [if_pos (by simpa using hp), if_pos (by simpa using hp),
            List.filterMap_cons, if_pos hem, filterMap_emit_filter_fst F pl p rest]
        · rw [if_neg (by simpa using hp), if_neg (by simpa using hp),
            filterMap_emit_filter_fst F pl p rest]
      · rw [if_neg hem]
        by_cases hp : e.path = p
        · rw [if_pos (by simpa using hp), List.filterMap_cons, if_neg hem,
            filterMap_emit_filter_fst F pl p rest]
        · rw [if_neg (by simpa using hp), filterMap_emit_filter_fst F pl p rest]

/-- In a tree with duplicate-free paths, filtering by the path of the `j`-th
entry leaves exactly that entry. -/
theorem filter_path_get_of_nodup : ∀ (l : List Entry),
    (l.map Entry.path).Nodup → ∀ (j : Nat) (hj : j < l.length),
    l.filter (fun e => e.path = (l.get ⟨j, hj⟩).path) = [l.get ⟨j, hj⟩]
  | [], _, j, hj => absurd hj (by simp)
  | e :: rest, hnd, 0, hj => by
      rw [List.map_cons, List.nodup_cons] at hnd
      have h0 : (e :: rest).get ⟨0, hj⟩ = e := rfl
      rw [h0, List.filter_cons, if_pos (by simp)]
      rw [List.filter_eq_nil_iff.mpr ?_]
      intro a ha
      simp only [decide_eq_true_eq]
      intro hcon
      exact hnd.1 (hcon ▸ List.mem_map_of_mem Entry.path ha)
  | e :: rest, hnd, j + 1, hj => by
      rw [List.map_cons, List.nodup_cons] at hnd
      have hjr : j < rest.length := by simpa using hj
      rw [List.get_cons_succ, List.filter_cons, if_neg ?_,
        filter_path_get_of_nodup rest hnd.2 j hjr]
      simp only [decide_eq_true_eq]
      intro hcon
      exact hnd.1 (hcon ▸ List.mem_map_of_mem Entry.path (List.get_mem rest _ hjr))

/-- C7: in a merge over a tree with duplicate-free paths, an image entry whose
enclosing folder entry has `only_images` creates no outline node, yet its page
is still inserted at the image's position in emission order, and the folder
itself still receives exactly one outline node. -/
theorem c7_only_images_suppression (pdfPages : List String → Option Nat)
    (imgReadable : List String → Bool) (pretty_labels : Bool)
    (tree : List Entry) (res : MergeResult)
    (hres : merge pdfPages imgReadable pretty_labels tree = some res)
    (hnd : (tree.map Entry.path).Nodup)
    (i j : Nat) (hi : i < tree.length) (hj : j < tree.length)
    (himg : (tree.get ⟨i, hi⟩).type = .img)
    (hfold : (tree.get ⟨j, hj⟩).type = .folder)
    (hpp : (tree.get ⟨j, hj⟩).path = (tree.get ⟨i, hi⟩).path.dropLast)
    (honly : (tree.get ⟨j, hj⟩).only_images = true)
    (hread : imgReadable (tree.get ⟨i, hi⟩).path = true) :
    (∀ o ∈ res.outlines, o.src ≠ (tree.get ⟨i, hi⟩).path) ∧
    (∃ hins : i < res.inserted.length,
      res.inserted.get ⟨i, hins⟩ = ((tree.get ⟨i, hi⟩).path, 1)) ∧
    (res.outlines.filter (fun o => o.src = (tree.get ⟨j, hj⟩).path)).length = 1 := by
  have hskT2 := tree2_skel pdfPages tree
  obtain ⟨g1, g2, g3, g4⟩ := merge_spec pdfPages imgReadable pretty_labels tree res hres
  have hlenT2 : (_assign_folder_page_indices
      (_update_files_page_count pdfPages tree).1).length = tree.length := by
    rw [afpi_length, update_fst_length]
  have hT2leni : i < (_assign_folder_page_indices
      (_update_files_page_count pdfPages tree).1).length := by rw [hlenT2]; exact hi
  have hT2lenj : j < (_assign_folder_page_indices
      (_update_files_page_count pdfPages tree).1).length := by rw [hlenT2]; exact hj
  have hndT2 : ((_assign_folder_page_indices
      (_update_files_page_count pdfPages tree).1).map Entry.path).Nodup := by
    rw [skel_proj_path hskT2]; exact hnd
  have hT2ipath : ((_assign_folder_page_indices
      (_update_files_page_count pdfPages tree).1).get ⟨i, hT2leni⟩).path
      = (tree.get ⟨i, hi⟩).path :=
    map_eq_get (f := Entry.path) (skel_proj_path hskT2) i hT2leni hi
  have hT2jpath : ((_assign_folder_page_indices
      (_update_files_page_count pdfPages tree).1).get ⟨j, hT2lenj⟩).path
      = (tree.get ⟨j, hj⟩).path :=
    map_eq_get (f := Entry.path) (skel_proj_path hskT2) j hT2lenj hj
  have hT2itype : ((_assign_folder_page_indices
      (_update_files_page_count pdfPages tree).1).get ⟨i, hT2leni⟩).type
      = (tree.get ⟨i, hi⟩).type :=
    map_eq_get (f := Entry.type) (skel_proj_type hskT2) i hT2leni hi
  have hT2jtype : ((_assign_folder_page_indices
      (_update_files_page_count pdfPages tree).1).get ⟨j, hT2lenj⟩).type
      = (tree.get ⟨j, hj⟩).type :=
    map_eq_get (f := Entry.type) (skel_proj_type hskT2) j hT2lenj hj
  have hT2joi : ((_assign_folder_page_indices
      (_update_files_page_count pdfPages tree).1).get ⟨j, hT2lenj⟩).only_images
      = (tree.get ⟨j, hj⟩).only_images :=
    map_eq_get (f := Entry.only_images) (skel_proj_oi hskT2) j hT2lenj hj
  have hlook : lookupFolder (_assign_folder_page_indices
      (_update_files_page_count pdfPages tree).1) (tree.get ⟨i, hi⟩).path.dropLast
      = some ((_assign_folder_page_indices
        (_update_files_page_count pdfPages tree).1).get ⟨j, hT2lenj⟩) := by
    have hsome : (lookupFolder (_assign_folder_page_indices
        (_update_files_page_count pdfPages tree).1)
        (tree.get ⟨i, hi⟩).path.dropLast).isSome :=
      lookupFolder_isSome ⟨_, List.get_mem _ _ hT2lenj,
        by rw [hT2jtype]; exact hfold, by rw [hT2jpath]; exact hpp⟩
    obtain ⟨f, hf⟩ := Option.isSome_iff_exists.mp hsome
    obtain ⟨hfm, _, hfp⟩ := lookupFolder_spec hf
    have hfe : f = (_assign_folder_page_indices
        (_update_files_page_count pdfPages tree).1).get ⟨j, hT2lenj⟩ := by
      apply List.inj_on_of_nodup_map hndT2 hfm (List.get_mem _ _ _)
      rw [hfp, hT2jpath, hpp]
    rw [hf, hfe]
  have hemits_img : outlineEmits (lookupFolder (_assign_folder_page_indices
      (_update_files_page_count pdfPages tree).1))
      ((_assign_folder_page_indices
        (_update_files_page_count pdfPages tree).1).get ⟨i, hT2leni⟩) = false := by
    rw [outlineEmits, if_pos ?_]
    refine ⟨by rw [hT2itype]; exact himg, ?_⟩
    rw [hT2ipath, hlook]
    exact hT2joi.trans honly
  refine ⟨?_, ?_, ?_⟩
  · intro o ho hcon
    have hmem : (o.src, o.title) ∈ res.outlines.map (fun o => (o.src, o.title)) :=
      List.mem_map_of_mem _ ho
    rw [g3] at hmem
    rcases List.mem_filterMap.mp hmem with ⟨e', he', hfe⟩
    by_cases hem : outlineEmits (lookupFolder (_assign_folder_page_indices
        (_update_files_page_count pdfPages tree).1)) e'
    case neg => rw [if_neg hem] at hfe; exact absurd hfe (by simp)
    case pos =>
    rw [if_pos hem] at hfe
    have hpath' : e'.path = o.src := congrArg Prod.fst (Option.some_inj.mp hfe)
    have hee : e' = (_assign_folder_page_indices
        (_update_files_page_count pdfPages tree).1).get ⟨i, hT2leni⟩ := by
      apply List.inj_on_of_nodup_map hndT2 he' (List.get_mem _ _ _)
      rw [hpath', hT2ipath, hcon]
    rw [hee, hemits_img] at hem
    exact absurd hem (by simp)
  · have hlenins : res.inserted.length = tree.length := by
      rw [g2, List.length_map, hlenT2]
    refine ⟨by rw [hlenins]; exact hi, ?_⟩
    simp only [g2, List.get_eq_getElem, List.getElem_map]
    rw [List.get_eq_getElem] at hT2itype hT2ipath
    have hins_val : _insert_into_pdf pdfPages imgReadable
        ((_assign_folder_page_indices
          (_update_files_page_count pdfPages tree).1)[i]) = 1 := by
      unfold _insert_into_pdf
      rw [hT2itype, himg, hT2ipath, hread]
      rfl
    rw [hins_val, hT2ipath]
    rfl
  · have hfl := congrArg
      (List.filter (fun q : List String × String => q.1 = (tree.get ⟨j, hj⟩).path)) g3
    rw [List.filter_map] at hfl
    have hcomp : ((fun q : List String × String =>
          decide (q.1 = (tree.get ⟨j, hj⟩).path)) ∘ (fun o : OutlineNode => (o.src, o.title)))
        = (fun o : OutlineNode => decide (o.src = (tree.get ⟨j, hj⟩).path)) := rfl
    rw [hcomp] at hfl
    have hlen := congrArg List.length hfl
    rw [List.length_map, filterMap_emit_filter_fst] at hlen
    have hfp : (_assign_folder_page_indices
        (_update_files_page_count pdfPages tree).1).filter
          (fun e => e.path = (tree.get ⟨j, hj⟩).path)
        = [(_assign_folder_page_indices
            (_update_files_page_count pdfPages tree).1).get ⟨j, hT2lenj⟩] := by
      rw [← hT2jpath]
      exact filter_path_get_of_nodup _ hndT2 j hT2lenj
    rw [hfp] at hlen
    have hemits_fold : outlineEmits (lookupFolder (_assign_folder_page_indices
        (_update_files_page_count pdfPages tree).1))
        ((_assign_folder_page_indices
          (_update_files_page_count pdfPages tree).1).get ⟨j, hT2lenj⟩) = true := by
      rw [outlineEmits]
      rw [if_neg (by rw [hT2jtype, hfold]; simp)]
      rw [if_neg (by rw [hT2jtype, hfold]; simp)]
    rw [List.filterMap_cons, if_pos hemits_fold] at hlen
    simpa using hlen

end Mkpdf

namespace Mkpdf

/-- Witness for C7 on `c7Tree`: image `A/x.jpg` (index 1) inside the
image-only folder `A` (index 0). -/
theorem c7_only_images_suppression_witness :
    merge (fun _ => none) (fun _ => true) false c7Tree = some c7Res
    ∧ (c7Tree.map Entry.path).Nodup
    ∧ ((∀ o ∈ c7Res.outlines, o.src ≠ (c7Tree.get ⟨1, by decide⟩).path)
       ∧ (∃ hins : 1 < c7Res.inserted.length,
           c7Res.inserted.get ⟨1, hins⟩ = ((c7Tree.get ⟨1, by decide⟩).path, 1))
       ∧ (c7Res.outlines.filter
           (fun o => o.src = (c7Tree.get ⟨0, by decide⟩).path)).length = 1) :=
  ⟨by decide, by decide,
   c7_only_images_suppression (fun _ => none) (fun _ => true) false c7Tree c7Res
     (by decide) (by decide) 1 0 (by decide) (by decide) (by decide) (by decide)
     (by decide) (by decide) (by decide)⟩

end Mkpdf

namespace Mkpdf

/-! ## C10: the resolved title never reaches the outline -/

theorem dropTitle_path (e : Entry) : (dropTitle e).path = e.path := rfl

theorem dropTitle_type (e : Entry) : (dropTitle e).type = e.type := rfl

theorem dropTitle_label (e : Entry) : (dropTitle e).label = e.label := rfl

theorem dropTitle_only_images (e : Entry) :
    (dropTitle e).only_images = e.only_images := rfl

theorem dropTitle_pages (e : Entry) : (dropTitle e).pages = e.pages := rfl

theorem dropTitle_page (e : Entry) : (dropTitle e).page = e.page := rfl

theorem dropTitle_setPage (e : Entry) (c : Option Nat) :
    ({ dropTitle e with page := c } : Entry) = dropTitle { e with page := c } := rfl

theorem outlineTitle_dropTitle (pl : Bool) (e : Entry) :
    outlineTitle pl (dropTitle e) = outlineTitle pl e := rfl

theorem _add_outline_dropTitle (e : Entry) (parent : Option (List String)) (pl : Bool) :
    _add_outline (dropTitle e) parent pl = _add_outline e parent pl := rfl

theorem entryPages_dropTitle (e : Entry) : entryPages (dropTitle e) = entryPages e := rfl

/-- Page counting ignores titles (updated tree, elementwise). -/
theorem update_dropTitle_fst (pdfPages : List String → Option Nat) (l : List Entry) :
    (_update_files_page_count pdfPages (l.map dropTitle)).1
    = ((_update_files_page_count pdfPages l).1).map dropTitle := by
  unfold _update_files_page_count
  simp only [List.map_map]
  apply List.map_congr_left
  intro e _
  simp only [Function.comp_apply]
  rcases e with ⟨p, t, ti, lbs, lb, oi, pgs, pg⟩
  dsimp only [dropTitle]
  cases t with
  | pdf => cases pdfPages p <;> rfl
  | img => rfl
  | folder => rfl

/-- Page counting ignores titles (warnings). -/
theorem update_dropTitle_snd (pdfPages : List String → Option Nat) (l : List Entry) :
    (_update_files_page_count pdfPages (l.map dropTitle)).2
    = (_update_files_page_count pdfPages l).2 := by
  unfold _update_files_page_count
  simp only [List.filterMap_map]
  apply List.filterMap_congr
  intro e _
  rcases e with ⟨p, t, ti, lbs, lb, oi, pgs, pg⟩
  cases t <;> rfl

end Mkpdf

namespace Mkpdf

/-- The pre-pass ignores titles. -/
theorem afpi_foldr_dropTitle : ∀ (l : List Entry) (n : Nat) (acc : List Entry),
    ((l.map dropTitle).foldr (fun item st =>
      if item.page.isSome ∧ 0 < item.pages.getD 0 then
        (item.page.getD 0, item :: st.2)
      else if item.type = .folder then
        (st.1, { item with page := some st.1 } :: st.2)
      else
        (st.1, item :: st.2)) ((n : Nat), acc.map dropTitle))
    = ((l.foldr (fun item st =>
      if item.page.isSome ∧ 0 < item.pages.getD 0 then
        (item.page.getD 0, item :: st.2)
      else if item.type = .folder then
        (st.1, { item with page := some st.1 } :: st.2)
      else
        (st.1, item :: st.2)) ((n : Nat), acc)).1,
      (l.foldr (fun item st =>
      if item.page.isSome ∧ 0 < item.pages.getD 0 then
        (item.page.getD 0, item :: st.2)
      else if item.type = .folder then
        (st.1, { item with page := some st.1 } :: st.2)
      else
        (st.1, item :: st.2)) ((n : Nat), acc)).2.map dropTitle)
  | [], _, _ => rfl
  | e :: rest, n, acc => by
      rw [List.map_cons, List.foldr_cons, List.foldr_cons,
        afpi_foldr_dropTitle rest n acc]
      simp only [dropTitle_page, dropTitle_pages, dropTitle_type]
      by_cases h1 : e.page.isSome ∧ 0 < e.pages.getD 0
      · rw [if_pos h1, if_pos h1]
        simp [List.map_cons]
      · rw [if_neg h1, if_neg h1]
        by_cases h2 : e.type = .folder
        · rw [if_pos h2, if_pos h2]
          simp [List.map_cons, dropTitle]
        · rw [if_neg h2, if_neg h2]
          simp [List.map_cons]

/-- The pre-pass ignores titles. -/
theorem afpi_dropTitle (l : List Entry) :
    _assign_folder_page_indices (l.map dropTitle)
    = (_assign_folder_page_indices l).map dropTitle := by
  unfold _assign_folder_page_indices
  have h := afpi_foldr_dropTitle l 0 []
  rw [List.map_nil] at h
  rw [h]

/-- The `folders` dictionary ignores titles. -/
theorem lookupFolder_dropTitle (l : List Entry) (p : List String) :
    lookupFolder (l.map dropTitle) p = (lookupFolder l p).map dropTitle := by
  unfold lookupFolder
  rw [List.filter_map]
  have hpred : ((fun e : Entry => decide (e.type = .folder)) ∘ dropTitle)
      = (fun e : Entry => decide (e.type = .folder)) := rfl
  rw [hpred, ← List.map_reverse, List.find?_map]
  have hq : ((fun e : Entry => decide (e.path = p)) ∘ dropTitle)
      = (fun e : Entry => decide (e.path = p)) := rfl
  rw [hq]

end Mkpdf

namespace Mkpdf

theorem _insert_into_pdf_dropTitle (P : List String → Option Nat)
    (I : List String → Bool) (e : Entry) :
    _insert_into_pdf P I (dropTitle e) = _insert_into_pdf P I e := rfl

/-- One loop iteration ignores titles: running the step on a title-erased
item from a title-erased state gives the title-erased result. -/
theorem mergeStep_dropTitle (F : List String → Option Entry)
    (P : List String → Option Nat) (I : List String → Bool) (pl : Bool)
    (st : MergeState) (e : Entry) :
    mergeStep (fun p => (F p).map dropTitle) P I pl
      { st with done := st.done.map dropTitle } (dropTitle e)
    = (mergeStep F P I pl st e).map
        (fun s => { s with done := s.done.map dropTitle }) := by
  unfold mergeStep
  simp only [_add_outline_eval]
  simp only [outlineTitle_dropTitle, _insert_into_pdf_dropTitle, dropTitle_type,
    dropTitle_path, dropTitle_pages, dropTitle_label]
  by_cases himg : e.type = .img
  · rw [if_pos himg, if_pos himg]
    cases hf : F e.path.dropLast with
    | none => rfl
    | some f =>
        simp only [Option.map_some', dropTitle_only_images]
        by_cases honly : f.only_images
        · rw [if_pos honly, if_pos honly]
          simp [dropTitle, List.map_append]
        · rw [if_neg honly, if_neg honly]
          have hnf : ¬ e.type = EKind.folder := by rw [himg]; simp
          simp only [if_neg hnf]
          simp [dropTitle, List.map_append]
  · rw [if_neg himg, if_neg himg]
    by_cases hfold : e.type = EKind.folder
    · simp only [if_pos hfold]
      simp [dropTitle, List.map_append]
    · simp only [if_neg hfold]
      simp [dropTitle, List.map_append]

end Mkpdf

namespace Mkpdf

/-- The whole main loop ignores titles. -/
theorem mergeFold_dropTitle (F : List String → Option Entry)
    (P : List String → Option Nat) (I : List String → Bool) (pl : Bool) :
    ∀ (l : List Entry) (st : MergeState),
    (l.map dropTitle).foldlM (mergeStep (fun p => (F p).map dropTitle) P I pl)
      { st with done := st.done.map dropTitle }
    = (l.foldlM (mergeStep F P I pl) st).map
        (fun s => { s with done := s.done.map dropTitle })
  | [], st => rfl
  | e :: rest, st => by
      rw [List.map_cons, List.foldlM_cons, List.foldlM_cons, mergeStep_dropTitle]
      cases hstep : mergeStep F P I pl st e with
      | none => rfl
      | some st1 =>
          simp only [Option.map_some']
          exact mergeFold_dropTitle F P I pl rest st1

/-- `merge` ignores titles: merging a title-erased tree erases the titles of
the result's tree and changes nothing else, completion included. -/
theorem merge_dropTitle (P : List String → Option Nat) (I : List String → Bool)
    (pl : Bool) (l : List Entry) :
    merge P I pl (l.map dropTitle)
    = (merge P I pl l).map (fun r => { r with tree := r.tree.map dropTitle }) := by
  unfold merge
  simp only []
  rw [update_dropTitle_fst, update_dropTitle_snd, afpi_dropTitle]
  have hF : lookupFolder
      ((_assign_folder_page_indices (_update_files_page_count P l).1).map dropTitle)
      = fun p => (lookupFolder
          (_assign_folder_page_indices (_update_files_page_count P l).1) p).map dropTitle :=
    funext (fun p => lookupFolder_dropTitle _ p)
  rw [hF]
  have hfold : ((_assign_folder_page_indices
        (_update_files_page_count P l).1).map dropTitle).foldlM
      (mergeStep (fun p => (lookupFolder (_assign_folder_page_indices
        (_update_files_page_count P l).1) p).map dropTitle) P I pl)
      { page_index := 0, parents := [], outlines := [], inserted := [], done := [] }
      = ((_assign_folder_page_indices (_update_files_page_count P l).1).foldlM
          (mergeStep (lookupFolder (_assign_folder_page_indices
            (_update_files_page_count P l).1)) P I pl)
          { page_index := 0, parents := [], outlines := [], inserted := [],
            done := [] }).map
          (fun s => { s with done := s.done.map dropTitle }) :=
    mergeFold_dropTitle
      (lookupFolder (_assign_folder_page_indices (_update_files_page_count P l).1))
      P I pl (_assign_folder_page_indices (_update_files_page_count P l).1)
      { page_index := 0, parents := [], outlines := [], inserted := [], done := [] }
  rw [hfold]
  cases hrun : (_assign_folder_page_indices (_update_files_page_count P l).1).foldlM
      (mergeStep (lookupFolder (_assign_folder_page_indices
        (_update_files_page_count P l).1)) P I pl)
      { page_index := 0, parents := [], outlines := [], inserted := [], done := [] } with
  | none => rfl
  | some st => rfl

end Mkpdf

namespace Mkpdf

/-- Trees with equal skeletons give the same outline titles. -/
theorem map_outlineTitle_of_skel (pl : Bool) {l l' : List Entry}
    (h : l.map skel = l'.map skel) :
    l.map (fun e => outlineTitle pl e) = l'.map (fun e => outlineTitle pl e) := by
  have h2 := congrArg
    (List.map (fun s : List String × EKind × Bool × Option String =>
      if pl ∧ s.2.2.2.isNone
      then _prettify_label (s.2.2.2.getD (pyStem (s.1.getLast?.getD "")))
      else s.2.2.2.getD (pyStem (s.1.getLast?.getD "")))) h
  rw [List.map_map, List.map_map] at h2
  exact h2

/-- C10, amended: the text resolved from a `.title` file (the `"title"` key)
is never consulted by outline construction — a merge over any retitling of
the tree completes the same way with the identical outline, insertions and
warnings — and each outline node's title is computed from the entry's label
and, failing that, the *stem* of the entry's base name (the base name with
its final suffix removed, prettified only when `pretty_labels` is set and no
label exists), not the base name itself. -/
theorem c10_outline_ignores_resolved_title (pdfPages : List String → Option Nat)
    (imgReadable : List String → Bool) (pretty_labels : Bool)
    (tree tree' : List Entry) (res : MergeResult)
    (hres : merge pdfPages imgReadable pretty_labels tree = some res)
    (hdt : tree'.map dropTitle = tree.map dropTitle)
    (hnd : (tree.map Entry.path).Nodup) :
    (∃ res', merge pdfPages imgReadable pretty_labels tree' = some res' ∧
       res'.outlines = res.outlines ∧ res'.inserted = res.inserted ∧
       res'.warnings = res.warnings ∧
       res'.tree.map dropTitle = res.tree.map dropTitle) ∧
    (∀ o ∈ res.outlines, ∀ (i : Nat) (hi : i < tree.length),
       (tree.get ⟨i, hi⟩).path = o.src →
       o.title = outlineTitle pretty_labels (tree.get ⟨i, hi⟩)) := by
  constructor
  · have h1 : merge pdfPages imgReadable pretty_labels (tree'.map dropTitle)
        = merge pdfPages imgReadable pretty_labels (tree.map dropTitle) := by rw [hdt]
    rw [merge_dropTitle, merge_dropTitle, hres] at h1
    cases hres' : merge pdfPages imgReadable pretty_labels tree' with
    | none => rw [hres'] at h1; exact absurd h1 (by simp)
    | some res' =>
        rw [hres'] at h1
        simp only [Option.map_some'] at h1
        have h2 := Option.some_inj.mp h1
        have ho := congrArg MergeResult.outlines h2
        have hins := congrArg MergeResult.inserted h2
        have hw := congrArg MergeResult.warnings h2
        have ht := congrArg MergeResult.tree h2
        exact ⟨res', rfl, ho, hins, hw, ht⟩
  · intro o ho i hi hpath
    have hskT2 := tree2_skel pdfPages tree
    obtain ⟨g1, g2, g3, g4⟩ := merge_spec pdfPages imgReadable pretty_labels tree res hres
    have hT2leni : i < (_assign_folder_page_indices
        (_update_files_page_count pdfPages tree).1).length := by
      rw [afpi_length, update_fst_length]; exact hi
    have hndT2 : ((_assign_folder_page_indices
        (_update_files_page_count pdfPages tree).1).map Entry.path).Nodup := by
      rw [skel_proj_path hskT2]; exact hnd
    have hT2ipath : ((_assign_folder_page_indices
        (_update_files_page_count pdfPages tree).1).get ⟨i, hT2leni⟩).path
        = (tree.get ⟨i, hi⟩).path :=
      map_eq_get (f := Entry.path) (skel_proj_path hskT2) i hT2leni hi
    have hmem : (o.src, o.title) ∈ res.outlines.map (fun o => (o.src, o.title)) :=
      List.mem_map_of_mem _ ho
    rw [g3] at hmem
    rcases List.mem_filterMap.mp hmem with ⟨e', he', hfe⟩
    by_cases hem : outlineEmits (lookupFolder (_assign_folder_page_indices
        (_update_files_page_count pdfPages tree).1)) e'
    case neg => rw [if_neg hem] at hfe; exact absurd hfe (by simp)
    case pos =>
    rw [if_pos hem] at hfe
    have hpair := Option.some_inj.mp hfe
    have hpath' : e'.path = o.src := congrArg Prod.fst hpair
    have htitle : outlineTitle pretty_labels e' = o.title := congrArg Prod.snd hpair
    have hee : e' = (_assign_folder_page_indices
        (_update_files_page_count pdfPages tree).1).get ⟨i, hT2leni⟩ := by
      apply List.inj_on_of_nodup_map hndT2 he' (List.get_mem _ _ _)
      rw [hpath', hT2ipath, hpath]
    rw [← htitle, hee]
    exact map_eq_get (f := fun e => outlineTitle pretty_labels e)
      (map_outlineTitle_of_skel pretty_labels hskT2) i hT2leni hi

/-- C10, caveat on "base name": the outline title of a folder is the *stem*
of its base name, so a folder directory named `v1.2` is titled `v1`, not
`v1.2` — and not the `.title` text either. -/
theorem c10_folder_title_stem_counterexample :
    merge (fun _ => none) (fun _ => true) false
      [{ path := ["v1.2"], type := .folder, title := "Custom Title" }]
    = some { tree := [{ path := ["v1.2"], type := .folder, title := "Custom Title",
                        page := some 0 }],
             inserted := [(["v1.2"], 0)],
             outlines := [{ title := "v1", page_number := 0, parent := none,
                            src := ["v1.2"] }],
             warnings := [] }
    ∧ "v1" ≠ "v1.2" ∧ "v1" ≠ "Custom Title" := by
  refine ⟨by decide, by decide, by decide⟩

/-- Witness for C10 at a concrete input: one folder, retitled between the two
runs. -/
theorem c10_outline_ignores_resolved_title_witness :
    merge (fun _ => none) (fun _ => true) false c10Tree = some c10Res
    ∧ c10TreeB.map dropTitle = c10Tree.map dropTitle
    ∧ (c10Tree.map Entry.path).Nodup
    ∧ ((∃ res', merge (fun _ => none) (fun _ => true) false c10TreeB = some res' ∧
        res'.outlines = c10Res.outlines ∧ res'.inserted = c10Res.inserted ∧
        res'.warnings = c10Res.warnings ∧
        res'.tree.map dropTitle = c10Res.tree.map dropTitle) ∧
      (∀ o ∈ c10Res.outlines, ∀ (i : Nat) (hi : i < c10Tree.length),
        (c10Tree.get ⟨i, hi⟩).path = OutlineNode.src o →
        OutlineNode.title o = outlineTitle false (c10Tree.get ⟨i, hi⟩))) :=
  ⟨by decide, by decide, by decide,
   c10_outline_ignores_resolved_title (fun _ => none) (fun _ => true) false
     c10Tree c10TreeB c10Res (by decide) (by decide) (by decide)⟩

end Mkpdf
